import Mathlib

/-!
Verification of the `romt` (Rust Offline Mirror Tool) mirror core.

This development shallowly embeds the relevant parts of the Python source
(`src/romt/*.py`) into Lean.  Python `str` values are modelled as `List Char`
(abbreviated `PyStr`), Python `pathlib.Path` values as a directory-components
plus file-name record (`MPath`), Python dicts as insertion-ordered association
lists, and Python sets as duplicate-free lists (only membership matters for
the properties below).  Fallible Python code (raising exceptions) is modelled
with `Option`/`Except`.
-/

/-- Python `str` modelled as a list of characters. -/
abbrev PyStr := List Char

/-- Coerce a Lean string literal to the `PyStr` model. -/
def pys (s : String) : PyStr := s.data

/-- Model of Python `str.lower` applied to one character (ASCII case fold;
crate names and prefixes are ASCII). -/
def pyLowerChar (c : Char) : Char := c.toLower

/-- Model of Python `str.lower`: character-wise case fold. -/
def pyLower (s : PyStr) : PyStr := s.map pyLowerChar

/-- Model of `pathlib.Path`: parent directory components plus final name. -/
structure MPath where
  dir : List PyStr
  name : PyStr
deriving DecidableEq

/-- Model of Python `str.split(sep)` for a one-character separator. -/
def splitOnChar (c : Char) : PyStr → List PyStr
  | [] => [[]]
  | d :: rest =>
    if d = c then [] :: splitOnChar c rest
    else
      match splitOnChar c rest with
      | t :: ts => (d :: t) :: ts
      | [] => [[d]]

/-! ## `romt/integrity.py` -/

/-- Hexadecimal digit test, matching the character class `[0-9a-fA-F]` used in
`parse_hash_text`. -/
def isHexChar (c : Char) : Bool :=
  (('0' ≤ c ∧ c ≤ '9') ∨ ('a' ≤ c ∧ c ≤ 'f') ∨ ('A' ≤ c ∧ c ≤ 'F') : Prop)

/-- The newline strip at the head of `parse_hash_text`:
`if hash_text.endswith("\n"): hash_text = hash_text[:-1]`. -/
def stripTrailingNewline (t : PyStr) : PyStr :=
  if t.getLast? = some '\n' then t.dropLast else t

/-- The regex match of `parse_hash_text` on the already-stripped text. -/
def parse_hash_core (t : PyStr) : Option (PyStr × PyStr) :=
  match t.drop 64 with
  | c0 :: d :: n =>
    if c0 = ' ' ∧ (d = ' ' ∨ d = '*') ∧ (t.take 64).length = 64
        ∧ (t.take 64).all isHexChar then
      if '\n' ∈ n then
        if n.getLast? = some '\n' ∧ '\n' ∉ n.dropLast then
          some (t.take 64, n.dropLast)
        else
          none
      else
        some (t.take 64, n)
    else
      none
  | _ => none

/-- Embedding of `integrity.parse_hash_text`.  The source strips one trailing
newline, then matches `^(?P<hash>[0-9a-fA-F]{64}) [ *](?P<name>.*)$` with
`re.search`: 64 hex characters, a space, a space or asterisk, then the name.
In Python regexes `.` does not match a newline and `$` also matches just
before a newline that terminates the string, so a name containing `\n` is
only accepted when the `\n` is the final character of the (stripped) text. -/
def parse_hash_text (hash_text : PyStr) : Option (PyStr × PyStr) :=
  parse_hash_core (stripTrailingNewline hash_text)

/-- Embedding of `integrity.format_hash_text`: `f"{hash} *{name}\n"`. -/
def format_hash_text (hash : PyStr) (name : PyStr) : PyStr :=
  hash ++ ' ' :: '*' :: name ++ ['\n']

/-- Embedding of `integrity.write_hash_file_for`: the bytes written to
`path.sha256` are `format_hash_text(hash, path.name)`. -/
def write_hash_file_for_content (path : MPath) (hash : PyStr) : PyStr :=
  format_hash_text hash path.name

/-- Embedding of `integrity.read_hash_file` applied to a file holding the
given text: `parse_hash_text` of the file's content. -/
def read_hash_file_content (content : PyStr) : Option (PyStr × PyStr) :=
  parse_hash_text content

/-! ## `romt/crate.py`: prefix styles and crate paths -/

/-- Embedding of `crate.PrefixStyle`. -/
inductive PrefixStyle where
  | LOWER
  | MIXED
deriving DecidableEq

/-- Embedding of `crate.crate_prefix_from_name`:
length 1 → `"1"`, length 2 → `"2"`, length 3 → `"3/<c0>"`,
otherwise → `"<c0c1>/<c2c3>"` (`name[:2]/name[2:4]`); the whole prefix is
lowercased (`str.lower`) for `PrefixStyle.LOWER`. -/
def crate_prefix_from_name (name : PyStr) (prefix_style : PrefixStyle) : PyStr :=
  let prefix_ :=
    if name.length = 1 then pys "1"
    else if name.length = 2 then pys "2"
    else if name.length = 3 then pys "3/" ++ name.take 1
    else name.take 2 ++ '/' :: (name.drop 2).take 2
  if prefix_style = PrefixStyle.LOWER then pyLower prefix_ else prefix_

/-- Embedding of `crate.crate_basename_from_name_version`:
`f"{name}-{version}.crate"`. -/
def crate_basename_from_name_version (name version : PyStr) : PyStr :=
  name ++ '-' :: version ++ pys ".crate"

/-- Model of `pathlib`'s `/` join on relative posix paths: components joined
with `/`, empty components skipped (as `Path` drops empty segments). -/
def pathJoin (parts : List PyStr) : PyStr :=
  List.intercalate (pys "/") (parts.filter (fun p => ¬p.isEmpty))

/-- Embedding of `crate.crate_rel_path_from_name_version` (as a posix string):
`Path(prefix) / name / basename`. -/
def crate_rel_path_from_name_version
    (name version : PyStr) (prefix_style : PrefixStyle) : PyStr :=
  pathJoin [crate_prefix_from_name name prefix_style, name,
    crate_basename_from_name_version name version]

/-! ## `romt/common.py` / `romt/rustup.py`: version keys and fixup -/

/-- The whitespace characters stripped by Python `int()` (principal ASCII
whitespace). -/
def isPySpace (c : Char) : Bool :=
  (c = ' ' ∨ c = '\t' ∨ c = '\n' ∨ c = '\r' ∨ c = '\x0b' ∨ c = '\x0c' : Prop)

/-- Strip whitespace from both ends (Python `int()` accepts surrounding
whitespace). -/
def stripWs (s : PyStr) : PyStr :=
  ((s.dropWhile isPySpace).reverse.dropWhile isPySpace).reverse

/-- Decimal value of a digit string. -/
def digitsToNat (s : PyStr) : ℕ :=
  s.foldl (fun a c => 10 * a + (c.toNat - '0'.toNat)) 0

/-- Model of Python `int(s)`: optional surrounding whitespace, optional sign,
then a non-empty run of decimal digits (`none` models `ValueError`; PEP 515
underscore grouping and non-ASCII digits are not modelled — the version
components compared here are plain ASCII digits). -/
def pyInt (s : PyStr) : Option Int :=
  let t := stripWs s
  let signNeg := t.head? = some '-'
  let ds := if t.head? = some '+' ∨ t.head? = some '-' then t.tail else t
  if ds ≠ [] ∧ ds.all Char.isDigit then
    some (if signNeg then -(digitsToNat ds : Int) else (digitsToNat ds : Int))
  else
    none

/-- Evaluate `f` over a list, failing if any element fails (the generator in
`version_sort_key` raises `ValueError` as soon as `int` fails). -/
def pyMapInt (f : PyStr → Option Int) : List PyStr → Option (List Int)
  | [] => some []
  | x :: xs =>
    match f x, pyMapInt f xs with
    | some y, some ys => some (y :: ys)
    | _, _ => none

/-- Embedding of `common.version_sort_key`:
`tuple(int(v) for v in version.split("."))`; `none` when any component fails
to parse (Python raises `ValueError`). -/
def version_sort_key (version : PyStr) : Option (List Int) :=
  pyMapInt pyInt (splitOnChar '.' version)

/-- Python tuple comparison `>=` on integer tuples: lexicographic, a proper
prefix compares less. -/
def pyTupleGe : List Int → List Int → Bool
  | [], [] => true
  | [], _ :: _ => false
  | _ :: _, [] => true
  | a :: as, b :: bs => if a = b then pyTupleGe as bs else decide (a > b)

/-- Embedding of the decision in `rustup.Main._fixup_version`: overwrite
`rustup/release-stable.toml` iff the file is absent (`existing = none`) or
`version_sort_key(version) >= version_sort_key(old)`; `none` models a raised
`ValueError` for unparsable versions. -/
def fixup_version_writes (existing : Option PyStr) (version : PyStr) :
    Option Bool :=
  match existing with
  | none => some true
  | some old =>
    match version_sort_key version, version_sort_key old with
    | some new_key, some old_key => some (pyTupleGe new_key old_key)
    | _, _ => none

/-! ## `romt/cli.py`: run -/

/-- How the dispatched command in `cli.run` terminates: normally, with an
`error.Error`-hierarchy exception, or with `KeyboardInterrupt`. -/
inductive CmdOutcome where
  | success
  | error (message : PyStr)
  | keyboardInterrupt
deriving DecidableEq

/-- Embedding of the `try`/`except` tail of `cli.run`: an `error.Error` is
printed and yields `return 1`; a `KeyboardInterrupt` prints
`"Keyboard interrupt"` and falls through to the final `return 0`; normal
completion reaches `return 0`.  Result: (exit code, printed notices). -/
def cli_run (outcome : CmdOutcome) : ℕ × List PyStr :=
  match outcome with
  | CmdOutcome.success => (0, [])
  | CmdOutcome.error message => (1, [message])
  | CmdOutcome.keyboardInterrupt => (0, [pys "Keyboard interrupt"])

/-! ## `romt/download.py`: adownload -/

/-- Embedding of `common.tmp_path_for`:
`path.with_name("." + path.name + ".tmp")`. -/
def tmp_path_for (path : MPath) : MPath :=
  { path with name := '.' :: path.name ++ pys ".tmp" }

/-- A file system modelled as the list of present files (directories are not
tracked; `make_dirs_for` has no observable effect here). -/
abbrev FileSet := List MPath

/-- Delete a path (`Path.unlink`). -/
def fsRemove (fs : FileSet) (p : MPath) : FileSet := fs.filter (fun q => q ≠ p)

/-- Create/overwrite a path (`open(..., "wb")`). -/
def fsAdd (fs : FileSet) (p : MPath) : FileSet := p :: fsRemove fs p

/-- Embedding of `Downloader._adownload`: open `dest_path` for writing
(creating it), stream the body; on `DownloadError` delete the partial file
and re-raise.  `ok` abstracts whether the network fetch succeeds; the `Bool`
in the result is `false` when `DownloadError` propagates. -/
def adownload_helper (fs : FileSet) (dest_path : MPath) (ok : Bool) :
    FileSet × Bool :=
  let fs1 := fsAdd fs dest_path
  if ok then (fs1, true) else (fsRemove fs1 dest_path, false)

/-- Embedding of `Downloader.adownload`: unlink a pre-existing `dest_path`,
download into the `.{name}.tmp` sibling via `_adownload`, then rename the
temporary over `dest_path` on success. -/
def adownload (fs : FileSet) (dest_path : MPath) (ok : Bool) : FileSet × Bool :=
  let fs1 := if fs.contains dest_path then fsRemove fs dest_path else fs
  let tmp := tmp_path_for dest_path
  let r := adownload_helper fs1 tmp ok
  if r.2 then (fsAdd (fsRemove r.1 tmp) dest_path, true) else (r.1, false)

/-! ## `romt/common.py`: remove_empty_dirs -/

/-- Directory-tree model for `remove_empty_dirs`: the directories and regular
files present, each identified by its path (list of components). -/
structure DirFS where
  dirs : List (List PyStr)
  files : List (List PyStr)
deriving DecidableEq

/-- A directory is empty when no other entry lies strictly below it. -/
def dirIsEmpty (fs : DirFS) (d : List PyStr) : Bool :=
  fs.dirs.all (fun e => ¬(d <+: e ∧ d ≠ e : Prop))
    && fs.files.all (fun f => ¬(d <+: f ∧ d ≠ f : Prop))

/-- Model of `Path.rmdir`: succeeds iff the directory exists and is empty;
any `OSError` (missing or non-empty directory) is modelled as `none`. -/
def rmdir (fs : DirFS) (d : List PyStr) : Option DirFS :=
  if d ∈ fs.dirs ∧ dirIsEmpty fs d then
    some { fs with dirs := fs.dirs.filter (fun e => e ≠ d) }
  else
    none

/-- Path separators of `re.split(r"[\\/]+", ...)`. -/
def isSlash (c : Char) : Bool := (c = '/' ∨ c = '\\' : Prop)

/-- Model of `re.split(r"[\\/]+", s)`: split on maximal runs of slashes,
with an empty leading/trailing token when the string starts/ends with a
slash (never an empty token in the middle, since a run of consecutive
slashes is one separator: a slash immediately followed by another slash
contributes no token of its own). -/
def splitSlashRuns : PyStr → List PyStr
  | [] => [[]]
  | c :: rest =>
    if isSlash c then
      match rest.head? with
      | some d => if isSlash d then splitSlashRuns rest else [] :: splitSlashRuns rest
      | none => [] :: splitSlashRuns rest
    else
      match splitSlashRuns rest with
      | t :: ts => (c :: t) :: ts
      | [] => [[c]]

/-- The guard in `remove_empty_dirs`:
`not parts or "" in parts or "." in parts or ".." in parts`. -/
def badParts (parts : List PyStr) : Bool :=
  parts.isEmpty || ([] : PyStr) ∈ parts || pys "." ∈ parts || pys ".." ∈ parts

/-- The `while parts:` loop of `remove_empty_dirs`, with a structural fuel
counter (each iteration pops one component, so `parts.length` iterations
always suffice): `rmdir` the joined path; on `OSError` return, else pop the
last component and continue. -/
def remove_loop_aux (root : List PyStr) : ℕ → DirFS → List PyStr → DirFS
  | 0, fs, _ => fs
  | fuel + 1, fs, parts =>
    if parts.isEmpty then fs
    else
      match rmdir fs (root ++ parts) with
      | some fs1 => remove_loop_aux root fuel fs1 parts.dropLast
      | none => fs

/-- The `while parts:` loop of `remove_empty_dirs`. -/
def remove_empty_dirs_loop (fs : DirFS) (root : List PyStr)
    (parts : List PyStr) : DirFS :=
  remove_loop_aux root parts.length fs parts

/-- Embedding of `common.remove_empty_dirs`. -/
def remove_empty_dirs (fs : DirFS) (root_path : List PyStr)
    (dir_rel_path : PyStr) : DirFS :=
  let parts := splitSlashRuns dir_rel_path
  if badParts parts then fs else remove_empty_dirs_loop fs root_path parts

/-- `e` is a chain directory `root ++ parts.take i` for some `j < i ≤ n`. -/
def onChainAbove (root : List PyStr) (parts : List PyStr) (j : ℕ)
    (e : List PyStr) : Bool :=
  (List.range (parts.length + 1)).any
    (fun i => decide (j < i) && decide (e = root ++ parts.take i))

/-- The state after all chain directories strictly deeper than
`root ++ parts.take j` have been removed. -/
def chainErased (fs : DirFS) (root : List PyStr) (parts : List PyStr)
    (j : ℕ) : DirFS :=
  { fs with dirs := fs.dirs.filter (fun e => !onChainAbove root parts j e) }

/-- `root ++ parts.take j` is removable at its turn in the bottom-up sweep:
once all deeper chain directories are gone, its `rmdir` succeeds. -/
def emptyInTurn (fs : DirFS) (root : List PyStr) (parts : List PyStr)
    (j : ℕ) : Bool :=
  (rmdir (chainErased fs root parts j) (root ++ parts.take j)).isSome

/-! ## Shell glob matching (`fnmatch.fnmatchcase`) -/

/-- Tokens of a translated glob pattern (`fnmatch.translate`): `*` matches any
sequence (including newlines: the translated regex runs with `re.DOTALL`),
`?` any single character, a literal character, or a bracketed class with
optional `!` negation. -/
inductive GlobTok where
  | star
  | qmark
  | lit (c : Char)
  | cls (negated : Bool) (items : List (Char × Char))
deriving DecidableEq

/-- Find the closing `]` of a character class; returns the class content and
the remainder after `]`, or `none` when there is no closing `]`. -/
def findCloseFrom : List Char → Option (List Char × List Char)
  | [] => none
  | c :: rest =>
    if c = ']' then some ([], rest)
    else
      match findCloseFrom rest with
      | some (s, r) => some (c :: s, r)
      | none => none

/-- Scan a character class after `[` per `fnmatch.translate`: an optional
leading `!` negates; a `]` directly after the optional `!` is literal
content; an unterminated class makes the `[` a literal. Returns
`(negated, content, rest)`. -/
def scanClass (r : List Char) : Option (Bool × List Char × List Char) :=
  let p := match r with
    | '!' :: rest => (true, rest)
    | _ => (false, r)
  match p.2 with
  | ']' :: rest2 =>
    match findCloseFrom rest2 with
    | some (s, rest3) => some (p.1, ']' :: s, rest3)
    | none => none
  | other =>
    match findCloseFrom other with
    | some (s, rest3) => some (p.1, s, rest3)
    | none => none

/-- Interpret class content as regex class items: `a-b` is a range, other
characters stand for themselves (a `-` at either end is literal); an empty
range (`lo > hi`) matches nothing, as in `fnmatch.translate`. -/
def classItems : List Char → List (Char × Char)
  | [] => []
  | a :: '-' :: b :: rest => (a, b) :: classItems rest
  | a :: rest => (a, a) :: classItems rest

/-- Does a class (negated or not) match a character. -/
def clsMatch (negated : Bool) (items : List (Char × Char)) (c : Char) : Bool :=
  let inSet := items.any (fun p => (p.1 ≤ c ∧ c ≤ p.2 : Prop))
  if negated then !inSet else inSet

/-- Translate a glob pattern to tokens (`fnmatch.translate`).  The fuel is
only for structural termination; every step consumes at least one pattern
character, so `pat.length` fuel always suffices. -/
def translateGlobAux : ℕ → List Char → List GlobTok
  | 0, _ => []
  | _ + 1, [] => []
  | fuel + 1, c :: rest =>
    if c = '*' then GlobTok.star :: translateGlobAux fuel rest
    else if c = '?' then GlobTok.qmark :: translateGlobAux fuel rest
    else if c = '[' then
      match scanClass rest with
      | some (neg, stuff, rest3) =>
        GlobTok.cls neg (classItems stuff) :: translateGlobAux fuel rest3
      | none => GlobTok.lit '[' :: translateGlobAux fuel rest
    else GlobTok.lit c :: translateGlobAux fuel rest

def translateGlob (pat : List Char) : List GlobTok :=
  translateGlobAux pat.length pat

/-- Match a token list against a string, anchored at both ends
(`fnmatch` uses `re.fullmatch` semantics).  The fuel is only for structural
termination; each step shortens tokens or string, so
`toks.length + s.length + 1` always suffices. -/
def tokMatchAux : ℕ → List GlobTok → List Char → Bool
  | 0, _, _ => false
  | fuel + 1, toks, s =>
    match toks with
    | [] => s.isEmpty
    | GlobTok.star :: ts =>
      tokMatchAux fuel ts s
        || (match s with
            | [] => false
            | _ :: ss => tokMatchAux fuel (GlobTok.star :: ts) ss)
    | GlobTok.qmark :: ts =>
      match s with
      | [] => false
      | _ :: ss => tokMatchAux fuel ts ss
    | GlobTok.lit c :: ts =>
      match s with
      | d :: ss => c = d && tokMatchAux fuel ts ss
      | [] => false
    | GlobTok.cls neg items :: ts =>
      match s with
      | d :: ss => clsMatch neg items d && tokMatchAux fuel ts ss
      | [] => false

def tokMatch (toks : List GlobTok) (s : List Char) : Bool :=
  tokMatchAux (toks.length + s.length + 1) toks s

/-- Embedding of `fnmatch.fnmatchcase(name, pat)`. -/
def fnmatchcase (name : PyStr) (pat : PyStr) : Bool :=
  tokMatch (translateGlob pat) name

/-! ## `romt/crate.py`: CrateFilter -/

/-- Embedding of `crate._has_meta`: any of `* ? [ ]` occurs in the pattern. -/
def _has_meta (pat : PyStr) : Bool :=
  ('*' ∈ pat ∨ '?' ∈ pat ∨ '[' ∈ pat ∨ ']' ∈ pat : Prop)

/-- Embedding of `crate.CrateFilter`.  The maps are insertion-ordered dicts
from a crate-name pattern to its version-pattern set; the value `none`
stands for the `_all_versions_pat` sentinel (the identity-compared singleton
`{"*"}`), `some pats` for an ordinary set (which never contains `"*"`,
since `add` routes `"*"` to the sentinel). -/
structure CrateFilter where
  exact_map : List (PyStr × Option (List PyStr))
  pattern_map : List (PyStr × Option (List PyStr))
deriving DecidableEq

def CrateFilter.empty : CrateFilter := ⟨[], []⟩

/-- Dict lookup. -/
def dictGet (m : List (PyStr × Option (List PyStr))) (k : PyStr) :
    Option (Option (List PyStr)) :=
  (m.find? (fun kv => kv.1 = k)).map (fun kv => kv.2)

/-- Dict store `m[k] = v`: replace in place or append. -/
def dictSet (m : List (PyStr × Option (List PyStr))) (k : PyStr)
    (v : Option (List PyStr)) : List (PyStr × Option (List PyStr)) :=
  if m.any (fun kv => kv.1 = k) then
    m.map (fun kv => if kv.1 = k then (k, v) else kv)
  else
    m ++ [(k, v)]

/-- Python `set.add`. -/
def setAdd (s : List PyStr) (v : PyStr) : List PyStr :=
  if v ∈ s then s else s ++ [v]

/-- The shared body of `CrateFilter.add` for one of the two maps: a `"*"`
version pattern installs the sentinel; otherwise `setdefault` the set and
`add` the pattern unless the stored set is the sentinel. -/
def addToMap (m : List (PyStr × Option (List PyStr))) (crate_name_pat : PyStr)
    (version_pat : PyStr) : List (PyStr × Option (List PyStr)) :=
  if version_pat = pys "*" then dictSet m crate_name_pat none
  else
    match dictGet m crate_name_pat with
    | none => dictSet m crate_name_pat (some [version_pat])
    | some none => m
    | some (some pats) => dictSet m crate_name_pat (some (setAdd pats version_pat))

/-- Python `pat.split("@", 1)`: split at the first occurrence. -/
def splitFirstAt (c : Char) : PyStr → Option (PyStr × PyStr)
  | [] => none
  | d :: rest =>
    if d = c then some ([], rest)
    else
      match splitFirstAt c rest with
      | some (a, b) => some (d :: a, b)
      | none => none

/-- Embedding of `CrateFilter.add`. -/
def CrateFilter.add (f : CrateFilter) (pat : PyStr) : CrateFilter :=
  let nv := match splitFirstAt '@' pat with
    | some (n, v) => (n, v)
    | none => (pat, [])
  let crate_name_pat := if nv.1 = [] then pys "*" else nv.1
  let version_pat := if nv.2 = [] then pys "*" else nv.2
  if _has_meta crate_name_pat then
    { f with pattern_map := addToMap f.pattern_map crate_name_pat version_pat }
  else
    { f with exact_map := addToMap f.exact_map crate_name_pat version_pat }

/-- Embedding of `CrateFilter.is_filtered`. -/
def CrateFilter.is_filtered (f : CrateFilter) : Bool :=
  0 < f.exact_map.length + f.pattern_map.length

/-- Embedding of `CrateFilter._version_pats`: when unfiltered, just the
sentinel; else the exact-map group (when present) followed by every
pattern-map group whose name pattern glob-matches the name. -/
def CrateFilter.version_pats (f : CrateFilter) (name : PyStr) :
    List (Option (List PyStr)) :=
  if ¬f.is_filtered then [none]
  else
    (match dictGet f.exact_map name with
      | some g => [g]
      | none => [])
    ++ f.pattern_map.filterMap
        (fun kv => if fnmatchcase name kv.1 then some kv.2 else none)

/-- Embedding of `CrateFilter.name_matches`. -/
def CrateFilter.name_matches (f : CrateFilter) (name : PyStr) : Bool :=
  ¬(f.version_pats name).isEmpty

/-- The candidate-narrowing loop of `CrateFilter.filter_crate_versions`
(version sets modelled as lists; only membership is observed). -/
def filter_versions_go :
    List (Option (List PyStr)) → List PyStr → List PyStr → List PyStr
  | [], _, matching => matching
  | none :: _, candidates, matching => matching ++ candidates
  | some pats :: groups, candidates, matching =>
    let matched := candidates.filter (fun v => pats.any (fun p => fnmatchcase v p))
    let next := candidates.filter (fun v => !pats.any (fun p => fnmatchcase v p))
    if next.isEmpty then matching ++ matched
    else filter_versions_go groups next (matching ++ matched)

/-- Embedding of `CrateFilter.filter_crate_versions`. -/
def CrateFilter.filter_crate_versions (f : CrateFilter) (crate_name : PyStr)
    (versions : List PyStr) : List PyStr :=
  filter_versions_go (f.version_pats crate_name) versions []

/-- A filter selects crate `(name, version)` when `version` survives
`filter_crate_versions` (this is how the delta pipeline applies the filter
per crate version). -/
def filterMatches (f : CrateFilter) (name version : PyStr) : Bool :=
  version ∈ f.filter_crate_versions name [version]

/-! ## `romt/crate.py`: per-blob crate delta -/

/-- Embedding of `crate.Crate`: one line of an index blob. -/
structure Crate where
  name : PyStr
  version : PyStr
  hash : PyStr
deriving DecidableEq

/-- `d[k] = c` on an insertion-ordered dict keyed by version. -/
def dictInsertCrate (d : List (PyStr × Crate)) (k : PyStr) (c : Crate) :
    List (PyStr × Crate) :=
  if d.any (fun kv => kv.1 = k) then
    d.map (fun kv => if kv.1 = k then (k, c) else kv)
  else
    d ++ [(k, c)]

/-- The dict built by `crate.blob_crates`: `d[crate.version] = crate` over the
blob's parsed JSON lines (the last line for a version wins); its values are
what `blob_crates` yields, and `crate_changes_in_commit_range` rebuilds the
same dict keyed by version. -/
def crates_by_version (crates : List Crate) : List (PyStr × Crate) :=
  crates.foldl (fun d c => dictInsertCrate d c.version c) []

/-- Dict membership test `version in d`. -/
def dictHasVersion (d : List (PyStr × Crate)) (v : PyStr) : Bool :=
  d.any (fun kv => kv.1 = v)

/-- Dict lookup `d.get(version)`. -/
def dictGetCrate (d : List (PyStr × Crate)) (v : PyStr) : Option Crate :=
  (d.find? (fun kv => kv.1 = v)).map (fun kv => kv.2)

/-- The anchored core of the path regex in `crate_changes_in_commit_range`:
`1/[^/]` | `2/[^/]{2}` | `3/[^/]/[^/]{3}` | `[^/]{2}/[^/]{2}/[^/]{4,}`,
checked over the `/`-separated segments. -/
def crateIndexPathCore (path : PyStr) : Bool :=
  match splitOnChar '/' path with
  | [a, b] =>
    ((a = pys "1" ∧ b.length = 1) ∨ (a = pys "2" ∧ b.length = 2) : Prop)
  | [a, b, c] =>
    ((a = pys "3" ∧ b.length = 1 ∧ c.length = 3)
      ∨ (a.length = 2 ∧ b.length = 2 ∧ 4 ≤ c.length) : Prop)
  | _ => false

/-- The full path test: Python `$` also matches just before a newline that
terminates the string, so a path with one trailing newline also passes. -/
def crateIndexPathOk (path : PyStr) : Bool :=
  crateIndexPathCore path
    || (path.getLast? = some '\n' && crateIndexPathCore path.dropLast)

/-- `os.path.basename` for posix paths: the part after the last `/`. -/
def pyBasename (p : PyStr) : PyStr :=
  ((splitOnChar '/' p).getLast?).getD []

/-- Embedding of the per-blob body of `crate.crate_changes_in_commit_range`:
skip paths that do not look like index entries, build the version dicts of
the old and new blob, filter the union of versions, and report removals
(version gone from `new`) and additions (version new in `new`, or present
with a different hash). -/
def crate_changes_removed (filtered_versions : List PyStr)
    (old new : List (PyStr × Crate)) : List Crate :=
  old.filterMap (fun kv =>
    if kv.1 ∈ filtered_versions ∧ ¬dictHasVersion new kv.1 then some kv.2
    else none)

def crate_changes_added (filtered_versions : List PyStr)
    (old new : List (PyStr × Crate)) : List Crate :=
  new.filterMap (fun kv =>
    let hash_changed := match dictGetCrate old kv.1 with
      | none => true
      | some old_crate => decide (old_crate.hash ≠ kv.2.hash)
    if kv.1 ∈ filtered_versions ∧ hash_changed = true then some kv.2
    else none)

def crate_changes_for_blob (crate_filter : CrateFilter) (path : PyStr)
    (start_blob end_blob : List Crate) : List Crate × List Crate :=
  if ¬crateIndexPathOk path then ([], [])
  else
    let lower_name := pyLower (pyBasename path)
    let old := crates_by_version start_blob
    let new := crates_by_version end_blob
    let filtered_versions := crate_filter.filter_crate_versions lower_name
      ((old.map Prod.fst ++ new.map Prod.fst).dedup)
    (crate_changes_added filtered_versions old new,
      crate_changes_removed filtered_versions old new)

/-- The record an index blob holds for a version: the last parsed line with
that version (later duplicate lines overwrite earlier ones in the dict). -/
def lastVersionRecord (blob : List Crate) (v : PyStr) : Option Crate :=
  (blob.filter (fun c => c.version = v)).getLast?

/-- Concrete index path used to exercise the per-blob delta. -/
def c3_path : PyStr := pys "3/f/foo"

/-- Concrete start-blob contents (version 1.0.0 with hash "aa"). -/
def c3_sb : List Crate := [⟨pys "foo", pys "1.0.0", pys "aa"⟩]

/-- Concrete end-blob contents (same version, hash changed to "bb"). -/
def c3_eb : List Crate := [⟨pys "foo", pys "1.0.0", pys "bb"⟩]

/-- The end-blob record whose hash changed. -/
def c3_c : Crate := ⟨pys "foo", pys "1.0.0", pys "bb"⟩

/-! ## `romt/crate.py` `unpack`, `romt/toolchain.py` / `romt/rustup.py`
`cmd_unpack`: archive members -/

/-- An archive member as seen by the unpack loops: its name, whether it is a
directory entry (skipped by every loop), and its content for regular files
(`none` models a special member for which `extractfile` returns `None`). -/
structure TarMember where
  name : PyStr
  isDir : Bool
  content : Option PyStr
deriving DecidableEq

/-- `crate.INDEX_BUNDLE_PACKED_NAME`:
`"{INDEX_STANDARD_PATH}/{INDEX_BUNDLE_NAME}"` with
`INDEX_STANDARD_PATH = Path("git") / "crates.io-index"` and
`INDEX_BUNDLE_NAME = "origin.bundle"`. -/
def INDEX_BUNDLE_PACKED_NAME : PyStr := pys "git/crates.io-index/origin.bundle"

/-- Embedding of `crate.crate_name_version_from_rel_path`: `re.search` of
`/(?P<name>[^/]+)/(?P=name)-(?P<version>[^/]+)\.crate$` (verbose form in the
source). Since the pattern is anchored at the end and its tail contains no
`/`, a match forces `name` to be the penultimate `/`-segment and
`name-version.crate` to be the whole final segment, with a `/` present before
the `name` segment; `$` also matches just before one trailing newline
(`stripTrailingNewline`). Returns `("", "")` when there is no match. -/
def crate_name_version_from_rel_path (rel_path : PyStr) : PyStr × PyStr :=
  match (splitOnChar '/' (stripTrailingNewline rel_path)).reverse with
  | last :: name :: _ :: _ =>
    if name ≠ [] ∧ (name ++ ['-']).isPrefixOf last
        ∧ (pys ".crate").isSuffixOf last
        ∧ name.length + 8 ≤ last.length then
      (name, (last.drop (name.length + 1)).take (last.length - name.length - 7))
    else ([], [])
  | _ => ([], [])

/-- The mutable state of `crate.unpack`'s member loop: `found_file`,
`found_bundle`, the running `archive_prefix_style` (initially `MIXED`),
`num_crates`, and the relative paths extracted under `crates_root`. -/
structure CrateUnpackState where
  found_file : Bool
  found_bundle : Bool
  archive_prefix_style : PrefixStyle
  num_crates : Nat
  extracted : List PyStr
deriving DecidableEq

/-- Loop state on entry to `crate.unpack`. -/
def crate_unpack_init : CrateUnpackState :=
  ⟨false, false, PrefixStyle.MIXED, 0, []⟩

/-- One iteration of the `crate.unpack` member loop (`common.abort` messages
become `Except.error`; the `!r` quoting of the invalid format value is not
reproduced). Directory members are skipped; `ARCHIVE_FORMAT` aborts when any
regular member was already seen, otherwise its stripped content selects the
archive prefix style; the bundle member records `found_bundle`; a
`crates/`-member must parse to a name and version whose relative path under
`archive_prefix_style` reproduces the member name; anything else aborts. -/
def crate_unpack_step (prefix_style : PrefixStyle) (st : CrateUnpackState)
    (m : TarMember) : Except PyStr CrateUnpackState :=
  if m.isDir then Except.ok st
  else if m.name = pys "ARCHIVE_FORMAT" then
    if st.found_file then
      Except.error (pys "Unexpected ARCHIVE_FORMAT (not at archive start)")
    else
      match m.content with
      | none => Except.error (pys "Invalid ARCHIVE_FORMAT (unreadable)")
      | some content =>
        if stripWs content = pys "1" then
          Except.ok ⟨true, st.found_bundle, PrefixStyle.MIXED,
            st.num_crates, st.extracted⟩
        else if stripWs content = pys "2" then
          Except.ok ⟨true, st.found_bundle, PrefixStyle.LOWER,
            st.num_crates, st.extracted⟩
        else Except.error (pys "Invalid ARCHIVE_FORMAT " ++ stripWs content)
  else if m.name = INDEX_BUNDLE_PACKED_NAME then
    Except.ok ⟨true, true, st.archive_prefix_style, st.num_crates,
      st.extracted⟩
  else if (pys "crates/").isPrefixOf m.name then
    if (crate_name_version_from_rel_path m.name).1 = []
        ∨ (crate_name_version_from_rel_path m.name).2 = [] then
      Except.error (pys "Invalid crate " ++ m.name)
    else if m.name.drop 7 ≠
        crate_rel_path_from_name_version
          (crate_name_version_from_rel_path m.name).1
          (crate_name_version_from_rel_path m.name).2
          st.archive_prefix_style then
      Except.error (pys "Unexpected crate prefix for " ++ m.name)
    else
      Except.ok ⟨true, st.found_bundle, st.archive_prefix_style,
        st.num_crates + 1,
        st.extracted
          ++ [crate_rel_path_from_name_version
            (crate_name_version_from_rel_path m.name).1
            (crate_name_version_from_rel_path m.name).2 prefix_style]⟩
  else Except.error (pys "Unexpected archive member " ++ m.name)

/-- The `crate.unpack` member loop over the whole archive. -/
def crate_unpack_loop (prefix_style : PrefixStyle) (st : CrateUnpackState) :
    List TarMember → Except PyStr CrateUnpackState
  | [] => Except.ok st
  | m :: ms =>
    match crate_unpack_step prefix_style st m with
    | Except.error e => Except.error e
    | Except.ok st2 => crate_unpack_loop prefix_style st2 ms

/-- Embedding of `crate.unpack`: run the member loop from the initial state
and then require that the bundle member was found. The `keep_going`
parameter mirrors the source signature; the loop body never consults it. -/
def crate_unpack (prefix_style : PrefixStyle) (keep_going : Bool)
    (members : List TarMember) : Except PyStr CrateUnpackState :=
  match crate_unpack_loop prefix_style crate_unpack_init members with
  | Except.error e => Except.error e
  | Except.ok st =>
    if st.found_bundle then Except.ok st
    else Except.error (pys "Missing " ++ INDEX_BUNDLE_PACKED_NAME
      ++ pys " in archive")

/-- `error.UnexpectedArchiveMemberError(name)` raised by the toolchain and
rustup unpack loops. -/
inductive UnpackErr where
  | unexpectedMember (name : PyStr)
deriving DecidableEq

/-- Shared shape of `toolchain.cmd_unpack` and `rustup.cmd_unpack`: skip
directory members; a member whose name lacks the required leading string
raises `UnexpectedArchiveMemberError`; otherwise the name minus `strip`
leading characters is added to the `extracted` set. -/
def dist_unpack_loop (check : PyStr) (strip : Nat) (extracted : List PyStr) :
    List TarMember → Except UnpackErr (List PyStr)
  | [] => Except.ok extracted
  | m :: ms =>
    if m.isDir then dist_unpack_loop check strip extracted ms
    else if check.isPrefixOf m.name then
      dist_unpack_loop check strip (setAdd extracted (m.name.drop strip)) ms
    else Except.error (UnpackErr.unexpectedMember m.name)

/-- `toolchain.cmd_unpack` member loop: members must start with `"dist/"`;
extracted relative paths keep everything after that 5-character leading
string. -/
def toolchain_cmd_unpack (members : List TarMember) :
    Except UnpackErr (List PyStr) :=
  dist_unpack_loop (pys "dist/") 5 [] members

/-- `rustup.cmd_unpack` member loop: members must start with
`"rustup/archive/"` (`rustup_prefix + artifact_root_rel_path + "/"` with
`artifact_root_rel_path = "archive"`), while extracted relative paths strip
only the 7-character `"rustup/"`. -/
def rustup_cmd_unpack (members : List TarMember) :
    Except UnpackErr (List PyStr) :=
  dist_unpack_loop (pys "rustup/archive/") 7 [] members

/-! ## Supporting lemmas and claim theorems -/

theorem parse_format_roundtrip (hash name : PyStr)
    (hlen : hash.length = 64) (hhex : hash.all isHexChar = true)
    (hnl : '\n' ∉ name) :
    parse_hash_text (format_hash_text hash name) = some (hash, name) := by
  have hstrip : stripTrailingNewline (format_hash_text hash name)
      = hash ++ ' ' :: '*' :: name := by
    have hlast : (hash ++ ' ' :: '*' :: name ++ ['\n']).getLast? = some '\n' := by
      rw [List.getLast?_append]
      · simp
    have hdrop : (hash ++ ' ' :: '*' :: name ++ ['\n']).dropLast
        = hash ++ ' ' :: '*' :: name := by
      have h : hash ++ ' ' :: '*' :: name ++ ['\n']
          = (hash ++ ' ' :: '*' :: name) ++ ['\n'] := by simp
      rw [h, List.dropLast_concat]
    rw [stripTrailingNewline, format_hash_text, if_pos hlast, hdrop]
  rw [parse_hash_text, hstrip]
  have htake : (hash ++ ' ' :: '*' :: name).take 64 = hash := by
    rw [← hlen, List.take_left]
  have hdrop64 : (hash ++ ' ' :: '*' :: name).drop 64 = ' ' :: '*' :: name := by
    rw [← hlen, List.drop_left]
  rw [parse_hash_core]
  simp only [htake, hdrop64]
  simp [hlen, hhex, hnl]

theorem isHexChar_ne_space {c : Char} (h : isHexChar c = true) : c ≠ ' ' := by
  rintro rfl
  simp [isHexChar] at h

theorem parse_hash_core_eq_none_of_not_hex {t : PyStr}
    (h : (t.take 64).all isHexChar = false) : parse_hash_core t = none := by
  rw [parse_hash_core]
  rcases hd : t.drop 64 with _ | ⟨c1, _ | ⟨c2, rest⟩⟩
  · rfl
  · rfl
  · simp [h]

theorem parse_hash_core_eq_none_at64 {t : PyStr} {c : Char}
    (h64 : t[64]? = some c) (hc : c ≠ ' ') : parse_hash_core t = none := by
  rw [parse_hash_core]
  rcases hd : t.drop 64 with _ | ⟨c1, _ | ⟨c2, rest⟩⟩
  · rfl
  · rfl
  · have hh : (t.drop 64)[0]? = t[64]? := by
      rw [List.getElem?_drop]
    rw [hd, h64] at hh
    simp only [List.getElem?_cons_zero, Option.some.injEq] at hh
    subst hh
    simp [hc]

theorem parse_hash_core_eq_none_at65 {t : PyStr} {c : Char}
    (h65 : t[65]? = some c) (hsp : c ≠ ' ') (hst : c ≠ '*') :
    parse_hash_core t = none := by
  rw [parse_hash_core]
  rcases hd : t.drop 64 with _ | ⟨c1, _ | ⟨c2, rest⟩⟩
  · rfl
  · rfl
  · have hh : (t.drop 64)[1]? = t[65]? := by
      rw [List.getElem?_drop]
    rw [hd, h65] at hh
    simp only [List.getElem?_cons_succ, List.getElem?_cons_zero,
      Option.some.injEq] at hh
    subst hh
    simp [hsp, hst]

theorem mem_take_of_getElem? {l : PyStr} {i n : ℕ} {c : Char}
    (h : l[i]? = some c) (hin : i < n) : c ∈ l.take n := by
  have hc : (l.take n)[i]? = some c := by
    rw [List.getElem?_take_of_lt hin]
    exact h
  exact List.getElem?_mem hc

theorem stripTrailingNewline_getElem? {s : PyStr} {i : ℕ} (hi : i + 1 < s.length) :
    (stripTrailingNewline s)[i]? = s[i]? := by
  rw [stripTrailingNewline]
  split
  · rw [List.dropLast_eq_take, List.getElem?_take_of_lt (by omega)]
  · rfl

theorem stripTrailingNewline_of_no_newline {s : PyStr} (h : '\n' ∉ s) :
    stripTrailingNewline s = s := by
  rw [stripTrailingNewline, if_neg]
  intro hlast
  have hmem : '\n' ∈ s.getLast? := by rw [hlast]; rfl
  obtain ⟨hne, heq⟩ := List.mem_getLast?_eq_getLast hmem
  exact h (heq ▸ List.getLast_mem hne)

theorem parse_hash_accepts (hash : PyStr) (d : Char) (n : PyStr)
    (hd : d = ' ' ∨ d = '*')
    (hlen : hash.length = 64) (hhex : hash.all isHexChar = true)
    (hnl : '\n' ∉ n) :
    parse_hash_text (hash ++ ' ' :: d :: n) = some (hash, n) := by
  have hnothash : '\n' ∉ hash := by
    intro hmem
    have := List.all_eq_true.mp hhex _ hmem
    simp [isHexChar] at this
  have hne : stripTrailingNewline (hash ++ ' ' :: d :: n) = hash ++ ' ' :: d :: n := by
    apply stripTrailingNewline_of_no_newline
    intro hmem
    rcases List.mem_append.mp hmem with hmem | hmem
    · exact hnothash hmem
    · simp only [List.mem_cons] at hmem
      rcases hmem with h1 | h2 | h3
      · simp at h1
      · rcases hd with rfl | rfl <;> simp at h2
      · exact hnl h3
  rw [parse_hash_text, hne, parse_hash_core]
  have htake : (hash ++ ' ' :: d :: n).take 64 = hash := by
    rw [← hlen, List.take_left]
  have hdrop64 : (hash ++ ' ' :: d :: n).drop 64 = ' ' :: d :: n := by
    rw [← hlen, List.drop_left]
  simp only [htake, hdrop64]
  simp [hlen, hhex, hnl, hd]

theorem parse_hash_rejects_wrong_length (hash : PyStr) (d : Char) (n : PyStr)
    (hhex : hash.all isHexChar = true) (hlen : hash.length ≠ 64) :
    parse_hash_text (hash ++ ' ' :: d :: n) = none := by
  rw [parse_hash_text]
  have hslen : (hash ++ ' ' :: d :: n).length = hash.length + (n.length + 2) := by
    simp [Nat.add_comm, Nat.add_assoc, Nat.add_left_comm]
  rcases Nat.lt_or_ge hash.length 64 with hlt | hge
  · have hsp : (hash ++ ' ' :: d :: n)[hash.length]? = some ' ' := by
      rw [List.getElem?_append_right (le_refl _)]
      simp
    have hsp' : (stripTrailingNewline (hash ++ ' ' :: d :: n))[hash.length]?
        = some ' ' := by
      rw [stripTrailingNewline_getElem? (by omega)]
      exact hsp
    have hmem : ' ' ∈ (stripTrailingNewline (hash ++ ' ' :: d :: n)).take 64 :=
      mem_take_of_getElem? hsp' hlt
    apply parse_hash_core_eq_none_of_not_hex
    cases hall : ((stripTrailingNewline (hash ++ ' ' :: d :: n)).take 64).all isHexChar
    · rfl
    · exfalso
      have := List.all_eq_true.mp hall _ hmem
      simp [isHexChar] at this
  · have hgt : 64 < hash.length := lt_of_le_of_ne hge (fun h => hlen h.symm)
    have h64 : (hash ++ ' ' :: d :: n)[64]? = some hash[64] := by
      rw [List.getElem?_append_left hgt]
      exact List.getElem?_eq_getElem hgt
    have h64' : (stripTrailingNewline (hash ++ ' ' :: d :: n))[64]?
        = some hash[64] := by
      rw [stripTrailingNewline_getElem? (by omega)]
      exact h64
    have hhx : isHexChar hash[64] = true :=
      List.all_eq_true.mp hhex _ (List.getElem_mem hgt)
    exact parse_hash_core_eq_none_at64 h64' (isHexChar_ne_space hhx)

theorem parse_hash_rejects_non_hex (hash : PyStr) (d : Char) (n : PyStr)
    (hlen : hash.length = 64) (hhex : hash.all isHexChar = false) :
    parse_hash_text (hash ++ ' ' :: d :: n) = none := by
  rw [parse_hash_text]
  apply parse_hash_core_eq_none_of_not_hex
  have htake : (stripTrailingNewline (hash ++ ' ' :: d :: n)).take 64 = hash := by
    rw [stripTrailingNewline]
    split
    · rw [List.dropLast_eq_take, List.take_take]
      have hmin : min 64 ((hash ++ ' ' :: d :: n).length - 1) = 64 := by
        simp only [List.length_append, List.length_cons, hlen]
        omega
      rw [hmin, ← hlen, List.take_left]
    · rw [← hlen, List.take_left]
  rw [htake]
  exact hhex

theorem parse_hash_rejects_single_space (hash : PyStr) (c : Char) (rest : PyStr)
    (hlen : hash.length = 64) (hhex : hash.all isHexChar = true)
    (hsp : c ≠ ' ') (hst : c ≠ '*') (hnl : '\n' ∉ c :: rest) :
    parse_hash_text (hash ++ ' ' :: c :: rest) = none := by
  rw [parse_hash_text]
  have hnothash : '\n' ∉ hash := by
    intro hmem
    have := List.all_eq_true.mp hhex _ hmem
    simp [isHexChar] at this
  have hne : stripTrailingNewline (hash ++ ' ' :: c :: rest)
      = hash ++ ' ' :: c :: rest := by
    apply stripTrailingNewline_of_no_newline
    intro hmem
    rcases List.mem_append.mp hmem with hmem | hmem
    · exact hnothash hmem
    · simp only [List.mem_cons] at hmem
      rcases hmem with h1 | h2
      · simp at h1
      · exact hnl (by simpa using h2)
  rw [hne]
  have h65 : (hash ++ ' ' :: c :: rest)[65]? = some c := by
    rw [List.getElem?_append_right (by omega)]
    have h1 : 65 - hash.length = 1 := by omega
    rw [h1]
    simp
  exact parse_hash_core_eq_none_at65 h65 hsp hst

/-- C1 fails as stated: the claim quantifies over every path, but for a path
whose basename contains a newline the written sidecar
`"<hex> *a\nb\n"` does not parse back (`parse_hash_text` raises
`ValueError`, modelled as `none`), because in the source regex `.` does not
match `\n`.  Concrete input: path with basename `"a\nb"` and the 64-character
hex digest `"00...0"`. -/
theorem C1_counterexample :
    (List.replicate 64 '0').length = 64
    ∧ (List.replicate 64 '0').all isHexChar = true
    ∧ read_hash_file_content
        (write_hash_file_for_content ⟨[], pys "a\nb"⟩ (List.replicate 64 '0'))
      ≠ some (List.replicate 64 '0', pys "a\nb") := by
  refine ⟨by decide, by decide, ?_⟩
  decide

/-- C1 (amended): for every path `p` whose basename contains no newline and
every 64-character hex digest `d`, writing the sidecar via
`write_hash_file_for(p, d)` and parsing it via `read_hash_file` yields exactly
`(d, basename(p))`; parsing accepts both the two-space (`<hex>  name`) and
binary (`<hex> *name`) delimiter forms, rejects any line whose hash is
shorter or longer than 64 characters or contains a non-hex character, and
rejects a single-space delimiter (name not starting with space or `*`). -/
theorem C1_hash_sidecar_roundtrip :
    (∀ (p : MPath) (d : PyStr), d.length = 64 → d.all isHexChar = true →
      '\n' ∉ p.name →
      read_hash_file_content (write_hash_file_for_content p d) = some (d, p.name))
    ∧ (∀ (h n : PyStr), h.length = 64 → h.all isHexChar = true → '\n' ∉ n →
      parse_hash_text (h ++ ' ' :: ' ' :: n) = some (h, n)
      ∧ parse_hash_text (h ++ ' ' :: '*' :: n) = some (h, n))
    ∧ (∀ (h n : PyStr) (d : Char), h.all isHexChar = true → h.length ≠ 64 →
      parse_hash_text (h ++ ' ' :: d :: n) = none)
    ∧ (∀ (h n : PyStr) (d : Char), h.length = 64 → h.all isHexChar = false →
      parse_hash_text (h ++ ' ' :: d :: n) = none)
    ∧ (∀ (h : PyStr) (c : Char) (rest : PyStr), h.length = 64 →
      h.all isHexChar = true → c ≠ ' ' → c ≠ '*' → '\n' ∉ c :: rest →
      parse_hash_text (h ++ ' ' :: c :: rest) = none) := by
  refine ⟨?_, ?_, ?_, ?_, ?_⟩
  · intro p d hlen hhex hnl
    exact parse_format_roundtrip d p.name hlen hhex hnl
  · intro h n hlen hhex hnl
    exact ⟨parse_hash_accepts h ' ' n (Or.inl rfl) hlen hhex hnl,
      parse_hash_accepts h '*' n (Or.inr rfl) hlen hhex hnl⟩
  · intro h n d hhex hlen
    exact parse_hash_rejects_wrong_length h d n hhex hlen
  · intro h n d hlen hhex
    exact parse_hash_rejects_non_hex h d n hlen hhex
  · intro h c rest hlen hhex hsp hst hnl
    exact parse_hash_rejects_single_space h c rest hlen hhex hsp hst hnl

/-- Witness for C1: concrete instance with basename `file.bin` and the all-`0`
digest, plus concrete rejected lines. -/
theorem C1_hash_sidecar_roundtrip_witness :
    read_hash_file_content
        (write_hash_file_for_content ⟨[], pys "file.bin"⟩ (List.replicate 64 '0'))
      = some (List.replicate 64 '0', pys "file.bin")
    ∧ parse_hash_text (List.replicate 64 '0' ++ ' ' :: ' ' :: pys "file.bin")
      = some (List.replicate 64 '0', pys "file.bin")
    ∧ parse_hash_text (List.replicate 63 '0' ++ ' ' :: ' ' :: pys "file.bin") = none
    ∧ parse_hash_text (List.replicate 64 'z' ++ ' ' :: ' ' :: pys "file.bin") = none
    ∧ parse_hash_text (List.replicate 64 '0' ++ ' ' :: 'f' :: pys "ile.bin") = none :=
  ⟨C1_hash_sidecar_roundtrip.1 ⟨[], pys "file.bin"⟩ (List.replicate 64 '0')
      (by decide) (by decide) (by decide),
    (C1_hash_sidecar_roundtrip.2.1 (List.replicate 64 '0') (pys "file.bin")
      (by decide) (by decide) (by decide)).1,
    C1_hash_sidecar_roundtrip.2.2.1 (List.replicate 63 '0') (pys "file.bin") ' '
      (by decide) (by decide),
    C1_hash_sidecar_roundtrip.2.2.2.1 (List.replicate 64 'z') (pys "file.bin") ' '
      (by decide) (by decide),
    C1_hash_sidecar_roundtrip.2.2.2.2 (List.replicate 64 '0') 'f' (pys "ile.bin")
      (by decide) (by decide) (by decide) (by decide) (by decide)⟩

theorem intercalate_three (s a b c : PyStr) :
    List.intercalate s [a, b, c] = a ++ s ++ b ++ s ++ c := by
  simp [List.intercalate, List.intersperse]

theorem crate_prefix_ne_nil (name : PyStr) (ps : PrefixStyle) :
    ¬(crate_prefix_from_name name ps).isEmpty := by
  by_cases h1 : name.length = 1
  · rcases ps <;> simp [crate_prefix_from_name, h1, pyLower, pys]
  · by_cases h2 : name.length = 2
    · rcases ps <;> simp [crate_prefix_from_name, h1, h2, pyLower, pys]
    · by_cases h3 : name.length = 3
      · rcases ps <;> simp [crate_prefix_from_name, h1, h2, h3, pyLower, pys]
      · rcases ps <;> simp [crate_prefix_from_name, h1, h2, h3, pyLower, pys]

/-- C4: the crate directory prefix is `1`/`2`/`3/<c0>`/`<c0c1>/<c2c3>` by name
length; the LOWER-style prefix is the lowercase of the MIXED-style prefix; and
the crate's relative path is `<prefix>/<name>/<name>-<version>.crate`. -/
theorem C4_crate_prefix_and_rel_path :
    (∀ name : PyStr,
      (name.length = 1 → crate_prefix_from_name name PrefixStyle.MIXED = pys "1")
      ∧ (name.length = 2 → crate_prefix_from_name name PrefixStyle.MIXED = pys "2")
      ∧ (name.length = 3 →
        crate_prefix_from_name name PrefixStyle.MIXED = pys "3/" ++ name.take 1)
      ∧ (4 ≤ name.length →
        crate_prefix_from_name name PrefixStyle.MIXED
          = name.take 2 ++ '/' :: (name.drop 2).take 2))
    ∧ (∀ name : PyStr,
      crate_prefix_from_name name PrefixStyle.LOWER
        = pyLower (crate_prefix_from_name name PrefixStyle.MIXED))
    ∧ (∀ (name version : PyStr) (ps : PrefixStyle), name ≠ [] →
      crate_rel_path_from_name_version name version ps
        = crate_prefix_from_name name ps ++ '/' :: name
          ++ '/' :: (name ++ '-' :: version ++ pys ".crate")) := by
  refine ⟨?_, ?_, ?_⟩
  · intro name
    refine ⟨?_, ?_, ?_, ?_⟩
    · intro hlen
      simp [crate_prefix_from_name, hlen]
    · intro hlen
      simp [crate_prefix_from_name, hlen]
    · intro hlen
      simp [crate_prefix_from_name, hlen]
    · intro hlen
      have e1 : name.length ≠ 1 := by omega
      have e2 : name.length ≠ 2 := by omega
      have e3 : name.length ≠ 3 := by omega
      simp [crate_prefix_from_name, e1, e2, e3]
  · intro name
    simp [crate_prefix_from_name, pyLower]
  · intro name version ps hname
    rw [crate_rel_path_from_name_version, pathJoin]
    have h1 : ¬(crate_prefix_from_name name ps).isEmpty := crate_prefix_ne_nil name ps
    have h2 : ¬name.isEmpty := by simpa [List.isEmpty_iff] using hname
    have h3 : ¬(crate_basename_from_name_version name version).isEmpty := by
      simp [crate_basename_from_name_version, List.isEmpty_iff]
    rw [List.filter_cons_of_pos, List.filter_cons_of_pos, List.filter_cons_of_pos,
      List.filter_nil]
    · rw [intercalate_three]
      simp [crate_basename_from_name_version, pys]
    all_goals first | simpa using h1 | simpa using h2 | simpa using h3

/-- Witness for C4: concrete prefixes for names `a`, `ab`, `AbC`, `AbCd` and
the relative path of `AbCd@0.1.0` under MIXED style. -/
theorem C4_crate_prefix_and_rel_path_witness :
    crate_prefix_from_name (pys "a") PrefixStyle.MIXED = pys "1"
    ∧ crate_prefix_from_name (pys "ab") PrefixStyle.MIXED = pys "2"
    ∧ crate_prefix_from_name (pys "AbC") PrefixStyle.MIXED = pys "3/" ++ (pys "AbC").take 1
    ∧ crate_prefix_from_name (pys "AbCd") PrefixStyle.MIXED
      = (pys "AbCd").take 2 ++ '/' :: ((pys "AbCd").drop 2).take 2
    ∧ crate_rel_path_from_name_version (pys "AbCd") (pys "0.1.0") PrefixStyle.MIXED
      = crate_prefix_from_name (pys "AbCd") PrefixStyle.MIXED ++ '/' :: pys "AbCd"
        ++ '/' :: (pys "AbCd" ++ '-' :: pys "0.1.0" ++ pys ".crate") :=
  ⟨((C4_crate_prefix_and_rel_path.1 (pys "a")).1 (by decide)),
    ((C4_crate_prefix_and_rel_path.1 (pys "ab")).2.1 (by decide)),
    ((C4_crate_prefix_and_rel_path.1 (pys "AbC")).2.2.1 (by decide)),
    ((C4_crate_prefix_and_rel_path.1 (pys "AbCd")).2.2.2 (by decide)),
    (C4_crate_prefix_and_rel_path.2.2 (pys "AbCd") (pys "0.1.0")
      PrefixStyle.MIXED (by decide))⟩

theorem isPySpace_of_digit {c : Char} (h : c.isDigit = true) :
    isPySpace c = false := by
  simp only [Char.isDigit] at h
  simp only [isPySpace, decide_eq_false_iff_not]
  rintro (rfl | rfl | rfl | rfl | rfl | rfl) <;> simp at h

theorem digit_ne_plus {c : Char} (h : c.isDigit = true) : c ≠ '+' := by
  rintro rfl
  simp [Char.isDigit] at h

theorem digit_ne_minus {c : Char} (h : c.isDigit = true) : c ≠ '-' := by
  rintro rfl
  simp [Char.isDigit] at h

theorem digit_ne_dot {c : Char} (h : c.isDigit = true) : c ≠ '.' := by
  rintro rfl
  simp [Char.isDigit] at h

theorem dropWhile_space_of_digits {s : PyStr} (h : s.all Char.isDigit = true) :
    s.dropWhile isPySpace = s := by
  cases s with
  | nil => rfl
  | cons c rest =>
    rw [List.dropWhile_cons]
    have hc : c.isDigit = true := List.all_eq_true.mp h _ (by simp)
    rw [isPySpace_of_digit hc]
    simp

theorem stripWs_of_digits {s : PyStr} (h : s.all Char.isDigit = true) :
    stripWs s = s := by
  rw [stripWs, dropWhile_space_of_digits h, dropWhile_space_of_digits, List.reverse_reverse]
  rw [List.all_eq_true] at h ⊢
  intro c hc
  exact h c (by simpa using hc)

theorem pyInt_of_digits {s : PyStr} (hne : s ≠ []) (h : s.all Char.isDigit = true) :
    pyInt s = some (digitsToNat s : Int) := by
  rw [pyInt]
  simp only [stripWs_of_digits h]
  have hplus : ¬s.head? = some '+' := by
    cases s with
    | nil => simp at hne
    | cons c rest =>
      have hc : c.isDigit = true := List.all_eq_true.mp h _ (by simp)
      simpa using digit_ne_plus hc
  have hminus : ¬s.head? = some '-' := by
    cases s with
    | nil => simp at hne
    | cons c rest =>
      have hc : c.isDigit = true := List.all_eq_true.mp h _ (by simp)
      simpa using digit_ne_minus hc
  simp [hplus, hminus, hne, h]

theorem splitOnChar_of_not_mem {c : Char} {s : PyStr} (h : c ∉ s) :
    splitOnChar c s = [s] := by
  induction s with
  | nil => rfl
  | cons d rest ih =>
    rw [splitOnChar]
    have hd : ¬d = c := by
      rintro rfl
      exact h (by simp)
    rw [if_neg hd, ih (fun hm => h (by simp [hm]))]

theorem splitOnChar_append {c : Char} {a rest : PyStr} (h : c ∉ a) :
    splitOnChar c (a ++ c :: rest) = a :: splitOnChar c rest := by
  induction a with
  | nil => simp [splitOnChar]
  | cons d as ih =>
    rw [List.cons_append, splitOnChar]
    have hd : ¬d = c := by
      rintro rfl
      exact h (by simp)
    rw [if_neg hd, ih (fun hm => h (by simp [hm]))]

theorem not_dot_mem_of_digits {s : PyStr} (h : s.all Char.isDigit = true) :
    '.' ∉ s := by
  intro hmem
  exact digit_ne_dot (List.all_eq_true.mp h _ hmem) rfl

theorem pyTupleGe_three (x1 x2 x3 y1 y2 y3 : Int) :
    pyTupleGe [x1, x2, x3] [y1, y2, y3] = true
      ↔ (x1 > y1 ∨ (x1 = y1 ∧ (x2 > y2 ∨ (x2 = y2 ∧ x3 ≥ y3)))) := by
  by_cases h1 : x1 = y1 <;> by_cases h2 : x2 = y2 <;> by_cases h3 : x3 = y3
  all_goals simp [pyTupleGe, h1, h2, h3]
  all_goals omega

theorem version_sort_key_three {a b c : PyStr}
    (ha1 : a ≠ []) (ha2 : a.all Char.isDigit = true)
    (hb1 : b ≠ []) (hb2 : b.all Char.isDigit = true)
    (hc1 : c ≠ []) (hc2 : c.all Char.isDigit = true) :
    version_sort_key (a ++ '.' :: (b ++ '.' :: c))
      = some [(digitsToNat a : Int), (digitsToNat b : Int), (digitsToNat c : Int)] := by
  rw [version_sort_key, splitOnChar_append (not_dot_mem_of_digits ha2),
    splitOnChar_append (not_dot_mem_of_digits hb2),
    splitOnChar_of_not_mem (not_dot_mem_of_digits hc2)]
  simp [pyMapInt, pyInt_of_digits ha1 ha2, pyInt_of_digits hb1 hb2,
    pyInt_of_digits hc1 hc2]

/-- C7: rustup fixup overwrites `rustup/release-stable.toml` with candidate
version `V = a.b.c` iff the file is absent or `V` is at least the recorded
version `d.e.f` under component-wise (lexicographic) integer comparison. -/
theorem C7_rustup_fixup_version_compare :
    (∀ v : PyStr, fixup_version_writes none v = some true)
    ∧ (∀ a b c d e f : PyStr,
      a ≠ [] → a.all Char.isDigit = true →
      b ≠ [] → b.all Char.isDigit = true →
      c ≠ [] → c.all Char.isDigit = true →
      d ≠ [] → d.all Char.isDigit = true →
      e ≠ [] → e.all Char.isDigit = true →
      f ≠ [] → f.all Char.isDigit = true →
      (fixup_version_writes (some (d ++ '.' :: (e ++ '.' :: f)))
          (a ++ '.' :: (b ++ '.' :: c)) = some true
        ↔ ((digitsToNat a : Int) > (digitsToNat d : Int)
          ∨ ((digitsToNat a : Int) = (digitsToNat d : Int)
            ∧ ((digitsToNat b : Int) > (digitsToNat e : Int)
              ∨ ((digitsToNat b : Int) = (digitsToNat e : Int)
                ∧ (digitsToNat c : Int) ≥ (digitsToNat f : Int))))))) := by
  constructor
  · intro v
    rfl
  · intro a b c d e f ha1 ha2 hb1 hb2 hc1 hc2 hd1 hd2 he1 he2 hf1 hf2
    rw [fixup_version_writes, version_sort_key_three ha1 ha2 hb1 hb2 hc1 hc2,
      version_sort_key_three hd1 hd2 he1 he2 hf1 hf2]
    rw [← pyTupleGe_three]
    simp

/-- Witness for C7: absent file always written; `1.2.3 ≥ 1.2.2` written,
concretely. -/
theorem C7_rustup_fixup_version_compare_witness :
    fixup_version_writes none (pys "1.0.0") = some true
    ∧ fixup_version_writes (some (pys "1" ++ '.' :: (pys "2" ++ '.' :: pys "2")))
        (pys "1" ++ '.' :: (pys "2" ++ '.' :: pys "3")) = some true :=
  ⟨C7_rustup_fixup_version_compare.1 (pys "1.0.0"),
    (C7_rustup_fixup_version_compare.2 (pys "1") (pys "2") (pys "3")
        (pys "1") (pys "2") (pys "2")
        (by decide) (by decide) (by decide) (by decide) (by decide) (by decide)
        (by decide) (by decide) (by decide) (by decide) (by decide) (by decide)).mpr
      (by decide)⟩

/-- C8 fails as stated: on `KeyboardInterrupt`, `cli.run` prints the notice
`"Keyboard interrupt"` but then falls through to `return 0`, so the process
exit code is 0, not non-zero. -/
theorem C8_counterexample :
    (cli_run CmdOutcome.keyboardInterrupt).2 = [pys "Keyboard interrupt"]
    ∧ ¬(cli_run CmdOutcome.keyboardInterrupt).1 ≠ 0 := by
  constructor
  · rfl
  · simp [cli_run]

/-- C8 (amended): when a command is terminated by `KeyboardInterrupt` the
process prints a notice and exits with code 0; any Error-hierarchy exception
is printed and yields exit code 1; success yields exit code 0. -/
theorem C8_exit_codes :
    cli_run CmdOutcome.keyboardInterrupt = (0, [pys "Keyboard interrupt"])
    ∧ (∀ m : PyStr, cli_run (CmdOutcome.error m) = (1, [m]))
    ∧ cli_run CmdOutcome.success = (0, []) :=
  ⟨rfl, fun _ => rfl, rfl⟩

theorem tmp_path_for_ne (p : MPath) : tmp_path_for p ≠ p := by
  intro h
  have hname : ('.' :: p.name ++ pys ".tmp").length = p.name.length := by
    rw [show ('.' :: p.name ++ pys ".tmp") = (tmp_path_for p).name from rfl, h]
  simp [pys] at hname
  omega

/-- C9: if `dest` already exists and `adownload(url, dest)` fails with
`DownloadError`, then afterwards neither `dest` nor the `.{name}.tmp` partial
exists: the pre-existing destination was unlinked before the fetch and the
partial was deleted on failure. -/
theorem C9_failed_download_removes_dest :
    ∀ (fs : FileSet) (dest_path : MPath), dest_path ∈ fs →
      (adownload fs dest_path false).2 = false
      ∧ dest_path ∉ (adownload fs dest_path false).1
      ∧ tmp_path_for dest_path ∉ (adownload fs dest_path false).1 := by
  intro fs dest_path hmem
  have hc : fs.contains dest_path = true := List.elem_eq_true_of_mem hmem
  have hne : tmp_path_for dest_path ≠ dest_path := tmp_path_for_ne dest_path
  have hres : adownload fs dest_path false
      = (fsRemove (fsAdd (fsRemove fs dest_path) (tmp_path_for dest_path))
          (tmp_path_for dest_path), false) := by
    simp [adownload, adownload_helper, hc, hmem]
  rw [hres]
  refine ⟨rfl, ?_, ?_⟩ <;>
    simp [fsRemove, fsAdd, List.mem_filter, hne]

/-- Witness for C9: concrete one-file file system holding `dest`. -/
theorem C9_failed_download_removes_dest_witness :
    (adownload [MPath.mk [] (pys "f.bin")] (MPath.mk [] (pys "f.bin")) false).2 = false
    ∧ MPath.mk [] (pys "f.bin")
      ∉ (adownload [MPath.mk [] (pys "f.bin")] (MPath.mk [] (pys "f.bin")) false).1
    ∧ tmp_path_for (MPath.mk [] (pys "f.bin"))
      ∉ (adownload [MPath.mk [] (pys "f.bin")] (MPath.mk [] (pys "f.bin")) false).1 :=
  C9_failed_download_removes_dest [MPath.mk [] (pys "f.bin")]
    (MPath.mk [] (pys "f.bin")) (by simp)

theorem onChainAbove_iff {root : List PyStr} {parts : List (List Char)} {j : ℕ}
    {e : List PyStr} :
    onChainAbove root parts j e = true
      ↔ ∃ i, j < i ∧ i ≤ parts.length ∧ e = root ++ parts.take i := by
  rw [onChainAbove, List.any_eq_true]
  constructor
  · rintro ⟨i, hi, hcond⟩
    simp only [Bool.and_eq_true, decide_eq_true_eq] at hcond
    exact ⟨i, hcond.1, by simpa using Nat.lt_succ_iff.mp (List.mem_range.mp hi),
      hcond.2⟩
  · rintro ⟨i, h1, h2, h3⟩
    exact ⟨i, List.mem_range.mpr (Nat.lt_succ_of_le h2), by simp [h1, h3]⟩

theorem chainErased_top (fs : DirFS) (root : List PyStr) (parts : List PyStr) :
    chainErased fs root parts parts.length = fs := by
  rw [chainErased]
  have hall : ∀ e ∈ fs.dirs, (!onChainAbove root parts parts.length e) = true := by
    intro e _
    simp only [Bool.not_eq_true']
    rw [← Bool.not_eq_true, onChainAbove_iff]
    rintro ⟨i, h1, h2, _⟩
    omega
  rw [List.filter_eq_self.mpr hall]

theorem emptyInTurn_top (fs : DirFS) (root : List PyStr) (parts : List PyStr) :
    emptyInTurn fs root parts parts.length
      = (rmdir fs (root ++ parts)).isSome := by
  rw [emptyInTurn, chainErased_top, List.take_length]

theorem chain_take_inj {root : List PyStr} {parts : List PyStr} {i i' : ℕ}
    (hi : i ≤ parts.length) (hi' : i' ≤ parts.length)
    (h : root ++ parts.take i = root ++ parts.take i') : i = i' := by
  have ht : parts.take i = parts.take i' := List.append_cancel_left h
  have h1 : (parts.take i).length = i := by simp [hi]
  have h2 : (parts.take i').length = i' := by simp [hi']
  rw [← h1, ← h2, ht]

theorem chainErased_concat (fs : DirFS) (root : List PyStr)
    (qs : List PyStr) (a : PyStr) {j : ℕ} (hj : j ≤ qs.length) :
    chainErased fs root (qs ++ [a]) j
      = chainErased
          { fs with dirs := fs.dirs.filter (fun e => e ≠ root ++ (qs ++ [a])) }
          root qs j := by
  rw [chainErased, chainErased]
  simp only [DirFS.mk.injEq, and_true]
  rw [List.filter_filter]
  apply List.filter_congr
  intro e _
  have hiff : onChainAbove root (qs ++ [a]) j e = true
      ↔ (e = root ++ (qs ++ [a]) ∨ onChainAbove root qs j e = true) := by
    rw [onChainAbove_iff, onChainAbove_iff]
    constructor
    · rintro ⟨i, h1, h2, h3⟩
      simp only [List.length_append, List.length_cons, List.length_nil] at h2
      by_cases hin : i = qs.length + 1
      · subst hin
        left
        rw [h3]
        congr 1
        rw [show qs.length + 1 = (qs ++ [a]).length by simp, List.take_length]
      · right
        have hle : i ≤ qs.length := by omega
        exact ⟨i, h1, hle, by rwa [List.take_append_of_le_length hle] at h3⟩
    · rintro (h | ⟨i, h1, h2, h3⟩)
      · refine ⟨qs.length + 1, by omega, by simp, ?_⟩
        rw [h]
        congr 1
        rw [show qs.length + 1 = (qs ++ [a]).length by simp, List.take_length]
      · exact ⟨i, h1, by simp; omega,
          by rw [List.take_append_of_le_length h2]; exact h3⟩
  cases hoc : onChainAbove root (qs ++ [a]) j e
  · have := (not_iff_not.mpr hiff).mp (by simp [hoc])
    push_neg at this
    simp [this.1, this.2]
  · rcases hiff.mp hoc with h | h
    · simp [h]
    · simp [h]

theorem take_concat_of_le {qs : List PyStr} {a : PyStr} {j : ℕ}
    (hj : j ≤ qs.length) : (qs ++ [a]).take j = qs.take j :=
  List.take_append_of_le_length hj

theorem emptyInTurn_concat (fs : DirFS) (root : List PyStr)
    (qs : List PyStr) (a : PyStr) {j : ℕ} (hj : j ≤ qs.length) :
    emptyInTurn fs root (qs ++ [a]) j
      = emptyInTurn
          { fs with dirs := fs.dirs.filter (fun e => e ≠ root ++ (qs ++ [a])) }
          root qs j := by
  rw [emptyInTurn, emptyInTurn, chainErased_concat fs root qs a hj,
    take_concat_of_le hj]

theorem rmdir_eq_some {fs fs' : DirFS} {d : List PyStr}
    (h : rmdir fs d = some fs') :
    fs' = { fs with dirs := fs.dirs.filter (fun e => e ≠ d) } := by
  rw [rmdir] at h
  split at h
  · exact (Option.some.injEq _ _ ▸ h).symm
  · exact absurd h (by simp)

theorem remove_loop_concat (fs : DirFS) (root : List PyStr)
    (qs : List PyStr) (a : PyStr) :
    remove_empty_dirs_loop fs root (qs ++ [a])
      = match rmdir fs (root ++ (qs ++ [a])) with
        | some fs1 => remove_empty_dirs_loop fs1 root qs
        | none => fs := by
  simp only [remove_empty_dirs_loop]
  have hlen : (qs ++ [a]).length = qs.length + 1 := by simp
  rw [hlen, remove_loop_aux, if_neg (by simp), List.dropLast_concat]

theorem remove_loop_spec (root : List PyStr) (parts : List PyStr) :
    ∀ fs : DirFS, ∃ k, k ≤ parts.length
      ∧ remove_empty_dirs_loop fs root parts = chainErased fs root parts k
      ∧ (∀ j, k < j → j ≤ parts.length → emptyInTurn fs root parts j = true)
      ∧ (k = 0 ∨ emptyInTurn fs root parts k = false) := by
  induction parts using List.reverseRecOn with
  | nil =>
    intro fs
    refine ⟨0, le_refl _, ?_, ?_, Or.inl rfl⟩
    · show fs = chainErased fs root [] 0
      exact (chainErased_top fs root []).symm
    · intro j h1 h2
      simp at h2
      omega
  | append_singleton qs a ih =>
    intro fs
    rw [remove_loop_concat]
    rcases hrm : rmdir fs (root ++ (qs ++ [a])) with _ | fs1
    · refine ⟨(qs ++ [a]).length, le_refl _, ?_, ?_, Or.inr ?_⟩
      · show fs = chainErased fs root (qs ++ [a]) (qs ++ [a]).length
        rw [chainErased_top]
      · intro j h1 h2
        omega
      · rw [emptyInTurn_top, hrm]
        rfl
    · have hfs1 : fs1 = { fs with dirs := fs.dirs.filter (fun e => e ≠ root ++ (qs ++ [a])) } :=
        rmdir_eq_some hrm
      obtain ⟨k, hk, heq, hall, hstop⟩ := ih fs1
      refine ⟨k, by simp; omega, ?_, ?_, ?_⟩
      · show remove_empty_dirs_loop fs1 root qs = chainErased fs root (qs ++ [a]) k
        rw [heq, hfs1, ← chainErased_concat fs root qs a hk]
      · intro j h1 h2
        simp only [List.length_append, List.length_cons, List.length_nil] at h2
        by_cases hjtop : j = qs.length + 1
        · subst hjtop
          rw [show qs.length + 1 = (qs ++ [a]).length by simp, emptyInTurn_top, hrm]
          rfl
        · have hle : j ≤ qs.length := by omega
          rw [emptyInTurn_concat fs root qs a hle, ← hfs1]
          exact hall j h1 hle
      · rcases hstop with h | h
        · exact Or.inl h
        · right
          rw [emptyInTurn_concat fs root qs a hk, ← hfs1]
          exact h

/-- C10: `remove_empty_dirs(root_path, dir_rel_path)` never removes
`root_path` itself and removes only chain directories strictly below it; it
is a complete no-op whenever `dir_rel_path` splits into parts containing an
empty component, `.` or `..`; otherwise a chain directory is removed exactly
when it and every deeper chain directory are each empty at their turn in the
deepest-upward sweep (so removal proceeds from the deepest directory upward
and stops at the first directory whose `rmdir` fails). -/
theorem C10_remove_empty_dirs :
    ∀ (fs : DirFS) (root : List PyStr) (rel : PyStr),
      (badParts (splitSlashRuns rel) = true → remove_empty_dirs fs root rel = fs)
      ∧ (remove_empty_dirs fs root rel).files = fs.files
      ∧ (root ∈ fs.dirs → root ∈ (remove_empty_dirs fs root rel).dirs)
      ∧ (∀ e, e ∈ fs.dirs → e ∉ (remove_empty_dirs fs root rel).dirs →
          ∃ i, 1 ≤ i ∧ i ≤ (splitSlashRuns rel).length
            ∧ e = root ++ (splitSlashRuns rel).take i)
      ∧ (badParts (splitSlashRuns rel) = false →
          ∀ i, 1 ≤ i → i ≤ (splitSlashRuns rel).length →
            ((root ++ (splitSlashRuns rel).take i ∈ fs.dirs
              ∧ root ++ (splitSlashRuns rel).take i
                ∉ (remove_empty_dirs fs root rel).dirs)
              ↔ ∀ j, i ≤ j → j ≤ (splitSlashRuns rel).length →
                  emptyInTurn fs root (splitSlashRuns rel) j = true)) := by
  intro fs root rel
  by_cases hbad : badParts (splitSlashRuns rel) = true
  · have hre : remove_empty_dirs fs root rel = fs := by
      rw [remove_empty_dirs]
      simp only [hbad, if_true]
    refine ⟨fun _ => hre, by rw [hre], fun h => by rw [hre]; exact h, ?_, ?_⟩
    · intro e he hne
      rw [hre] at hne
      exact absurd he hne
    · intro hfalse
      rw [hbad] at hfalse
      exact absurd hfalse (by simp)
  · have hbad' : badParts (splitSlashRuns rel) = false := by
      simpa using hbad
    have hre : remove_empty_dirs fs root rel
        = remove_empty_dirs_loop fs root (splitSlashRuns rel) := by
      rw [remove_empty_dirs]
      simp [hbad']
    obtain ⟨k, hk, heq, hall, hstop⟩ := remove_loop_spec root (splitSlashRuns rel) fs
    have hres : remove_empty_dirs fs root rel
        = chainErased fs root (splitSlashRuns rel) k := by
      rw [hre, heq]
    have hne : splitSlashRuns rel ≠ [] := by
      intro h
      rw [badParts, h] at hbad'
      simp at hbad'
    refine ⟨?_, ?_, ?_, ?_, ?_⟩
    · intro h
      exact absurd h (by simp [hbad'])
    · rw [hres]
      rfl
    · intro hroot
      rw [hres, chainErased]
      apply List.mem_filter.mpr
      refine ⟨hroot, ?_⟩
      simp only [Bool.not_eq_true']
      rw [← Bool.not_eq_true, onChainAbove_iff]
      rintro ⟨i, h1, h2, h3⟩
      have htake : (splitSlashRuns rel).take i = [] := by
        have happ : root ++ (splitSlashRuns rel).take i = root ++ [] := by
          simpa using h3.symm
        exact List.append_cancel_left happ
      rcases List.take_eq_nil_iff.mp htake with h | h
      · omega
      · exact hne h
    · intro e he hnot
      rw [hres, chainErased] at hnot
      have hpred : onChainAbove root (splitSlashRuns rel) k e = true := by
        by_contra hc
        exact hnot (List.mem_filter.mpr ⟨he, by simpa using hc⟩)
      obtain ⟨i, h1, h2, h3⟩ := onChainAbove_iff.mp hpred
      exact ⟨i, by omega, h2, h3⟩
    · intro _ i hi1 hin
      constructor
      · rintro ⟨hmem, hnot⟩
        rw [hres, chainErased] at hnot
        have hpred : onChainAbove root (splitSlashRuns rel) k
            (root ++ (splitSlashRuns rel).take i) = true := by
          by_contra hc
          exact hnot (List.mem_filter.mpr ⟨hmem, by simpa using hc⟩)
        obtain ⟨i', h1, h2, h3⟩ := onChainAbove_iff.mp hpred
        have hii : i = i' := chain_take_inj hin h2 h3
        subst hii
        intro j hj1 hj2
        exact hall j (by omega) hj2
      · intro hall2
        have hei : emptyInTurn fs root (splitSlashRuns rel) i = true :=
          hall2 i (le_refl i) hin
        have hmem : root ++ (splitSlashRuns rel).take i ∈ fs.dirs := by
          rw [emptyInTurn, rmdir] at hei
          split at hei
          · rename_i hcond
            exact (List.mem_filter.mp hcond.1).1
          · simp at hei
        have hki : k < i := by
          by_contra hc
          push_neg at hc
          rcases hstop with h0 | hfalse
          · omega
          · have htrue := hall2 k hc hk
            rw [htrue] at hfalse
            exact absurd hfalse (by simp)
        refine ⟨hmem, ?_⟩
        rw [hres, chainErased]
        intro hmemf
        have hp := (List.mem_filter.mp hmemf).2
        have hoc : onChainAbove root (splitSlashRuns rel) k
            (root ++ (splitSlashRuns rel).take i) = true :=
          onChainAbove_iff.mpr ⟨i, hki, hin, rfl⟩
        rw [hoc] at hp
        exact absurd hp (by simp)

/-- Witness for C10: a root `r` with empty chain `r/a/b`; pruning `a/b`
removes both chain directories but keeps the root, and the weird relative
path `a/./b` is a no-op. -/
theorem C10_remove_empty_dirs_witness :
    remove_empty_dirs
        (DirFS.mk [[pys "r"], [pys "r", pys "a"], [pys "r", pys "a", pys "b"]] [])
        [pys "r"] (pys "a/./b")
      = DirFS.mk [[pys "r"], [pys "r", pys "a"], [pys "r", pys "a", pys "b"]] []
    ∧ [pys "r"] ∈ (remove_empty_dirs
        (DirFS.mk [[pys "r"], [pys "r", pys "a"], [pys "r", pys "a", pys "b"]] [])
        [pys "r"] (pys "a/b")).dirs
    ∧ (∀ j, 1 ≤ j → j ≤ (splitSlashRuns (pys "a/b")).length →
        emptyInTurn
          (DirFS.mk [[pys "r"], [pys "r", pys "a"], [pys "r", pys "a", pys "b"]] [])
          [pys "r"] (splitSlashRuns (pys "a/b")) j = true) :=
  ⟨(C10_remove_empty_dirs _ _ _).1 (by decide),
    (C10_remove_empty_dirs _ _ _).2.2.1 (by decide),
    ((C10_remove_empty_dirs _ _ _).2.2.2.2 (by decide) 1 (by decide)
      (by decide)).mp (by decide)⟩

theorem tokMatchAux_congr :
    ∀ (n : ℕ) (toks : List GlobTok) (s : List Char) (f g : ℕ),
      toks.length + s.length ≤ n → toks.length + s.length < f →
      toks.length + s.length < g →
      tokMatchAux f toks s = tokMatchAux g toks s := by
  intro n
  induction n with
  | zero =>
    intro toks s f g hn hf hg
    match f, g with
    | f + 1, g + 1 =>
      have htoks : toks = [] := by
        cases toks with
        | nil => rfl
        | cons t ts => simp at hn
      subst htoks
      rfl
  | succ n ih =>
    intro toks s f g hn hf hg
    match f, g with
    | f + 1, g + 1 =>
      cases toks with
      | nil => rfl
      | cons t ts =>
        cases t with
        | star =>
          show (tokMatchAux f ts s || _) = (tokMatchAux g ts s || _)
          rw [ih ts s f g (by simp at hn; omega) (by simp at hf; omega)
            (by simp at hg; omega)]
          cases s with
          | nil => rfl
          | cons x ss =>
            show (_ || tokMatchAux f (GlobTok.star :: ts) ss)
              = (_ || tokMatchAux g (GlobTok.star :: ts) ss)
            rw [ih (GlobTok.star :: ts) ss f g (by simp at hn ⊢; omega)
              (by simp at hf ⊢; omega) (by simp at hg ⊢; omega)]
        | qmark =>
          cases s with
          | nil => rfl
          | cons x ss =>
            show tokMatchAux f ts ss = tokMatchAux g ts ss
            exact ih ts ss f g (by simp at hn ⊢; omega) (by simp at hf ⊢; omega)
              (by simp at hg ⊢; omega)
        | lit c =>
          cases s with
          | nil => rfl
          | cons x ss =>
            show (_ && tokMatchAux f ts ss) = (_ && tokMatchAux g ts ss)
            rw [ih ts ss f g (by simp at hn ⊢; omega) (by simp at hf ⊢; omega)
              (by simp at hg ⊢; omega)]
        | cls neg items =>
          cases s with
          | nil => rfl
          | cons x ss =>
            show (_ && tokMatchAux f ts ss) = (_ && tokMatchAux g ts ss)
            rw [ih ts ss f g (by simp at hn ⊢; omega) (by simp at hf ⊢; omega)
              (by simp at hg ⊢; omega)]

theorem tokMatchAux_eq_tokMatch {f : ℕ} {toks : List GlobTok} {s : List Char}
    (hf : toks.length + s.length < f) :
    tokMatchAux f toks s = tokMatch toks s :=
  tokMatchAux_congr (toks.length + s.length) toks s f
    (toks.length + s.length + 1) (le_refl _) hf (by omega)

theorem tokMatch_nil (s : List Char) : tokMatch [] s = s.isEmpty := rfl

theorem tokMatch_star (ts : List GlobTok) (s : List Char) :
    tokMatch (GlobTok.star :: ts) s
      = (tokMatch ts s
          || match s with
             | [] => false
             | _ :: ss => tokMatch (GlobTok.star :: ts) ss) := by
  show (tokMatchAux _ ts s || _) = _
  rw [tokMatchAux_eq_tokMatch (by simp)]
  cases s with
  | nil => rfl
  | cons x ss =>
    show (_ || tokMatchAux _ (GlobTok.star :: ts) ss) = _
    rw [tokMatchAux_eq_tokMatch (by simp)]

theorem tokMatch_lit_cons (c : Char) (ts : List GlobTok) (d : Char)
    (ss : List Char) :
    tokMatch (GlobTok.lit c :: ts) (d :: ss) = (c = d && tokMatch ts ss) := by
  show (_ && tokMatchAux _ ts ss) = _
  rw [tokMatchAux_eq_tokMatch (by simp; omega)]

theorem tokMatch_lit_nil (c : Char) (ts : List GlobTok) :
    tokMatch (GlobTok.lit c :: ts) [] = false := rfl

theorem tokMatch_lits (l : List Char) :
    ∀ s : List Char, tokMatch (l.map GlobTok.lit) s = true ↔ s = l := by
  induction l with
  | nil =>
    intro s
    rw [List.map_nil, tokMatch_nil]
    simp [List.isEmpty_iff]
  | cons c cs ih =>
    intro s
    cases s with
    | nil =>
      rw [List.map_cons, tokMatch_lit_nil]
      simp
    | cons d ds =>
      rw [List.map_cons, tokMatch_lit_cons]
      simp only [Bool.and_eq_true, decide_eq_true_eq, ih ds, List.cons.injEq]
      constructor
      · rintro ⟨h1, h2⟩
        exact ⟨h1.symm, h2⟩
      · rintro ⟨h1, h2⟩
        exact ⟨h1.symm, h2⟩

theorem tokMatch_star_all (s : List Char) :
    tokMatch [GlobTok.star] s = true := by
  induction s with
  | nil => rfl
  | cons x ss ih =>
    rw [tokMatch_star]
    simp [ih]

theorem translateGlob_of_no_meta {pat : PyStr} (h : _has_meta pat = false) :
    translateGlob pat = pat.map GlobTok.lit := by
  rw [translateGlob]
  induction pat with
  | nil => rfl
  | cons c rest ih =>
    rw [_has_meta] at h
    simp only [decide_eq_false_iff_not, List.mem_cons, not_or] at h
    push_neg at h
    obtain ⟨⟨h1, h1'⟩, ⟨h2, h2'⟩, ⟨h3, h3'⟩, ⟨h4, h4'⟩⟩ := h
    have hrest : _has_meta rest = false := by
      rw [_has_meta]
      simp only [decide_eq_false_iff_not]
      push_neg
      exact ⟨h1', h2', h3', h4'⟩
    show translateGlobAux (rest.length + 1) (c :: rest) = _
    rw [translateGlobAux]
    rw [if_neg (by simpa using Ne.symm h1), if_neg (by simpa using Ne.symm h2),
      if_neg (by simpa using Ne.symm h3)]
    rw [List.map_cons]
    exact congrArg _ (ih hrest)

theorem fnmatchcase_no_meta {n p : PyStr} (h : _has_meta p = false) :
    fnmatchcase n p = true ↔ n = p := by
  rw [fnmatchcase, translateGlob_of_no_meta h, tokMatch_lits]

theorem fnmatchcase_star (n : PyStr) : fnmatchcase n (pys "*") = true := by
  rw [fnmatchcase]
  have ht : translateGlob (pys "*") = [GlobTok.star] := rfl
  rw [ht]
  exact tokMatch_star_all n

theorem splitFirstAt_append {N V : PyStr} (h : '@' ∉ N) :
    splitFirstAt '@' (N ++ '@' :: V) = some (N, V) := by
  induction N with
  | nil => simp [splitFirstAt]
  | cons c rest ih =>
    rw [List.cons_append, splitFirstAt]
    have hc : ¬c = '@' := by
      rintro rfl
      exact h (by simp)
    rw [if_neg hc, ih (fun hm => h (by simp [hm]))]

theorem splitFirstAt_none {p : PyStr} (h : '@' ∉ p) :
    splitFirstAt '@' p = none := by
  induction p with
  | nil => rfl
  | cons c rest ih =>
    rw [splitFirstAt]
    have hc : ¬c = '@' := by
      rintro rfl
      exact h (by simp)
    rw [if_neg hc, ih (fun hm => h (by simp [hm]))]

theorem no_meta_ne_star {V : PyStr} (h : _has_meta V = false) : V ≠ pys "*" := by
  rintro rfl
  rw [_has_meta] at h
  simp [pys] at h

theorem version_pats_single_exact (N : PyStr) (g : Option (List PyStr)) :
    CrateFilter.version_pats ⟨[(N, g)], []⟩ N = [g] := by
  rw [CrateFilter.version_pats]
  rw [if_neg (by simp [CrateFilter.is_filtered])]
  simp [dictGet, List.find?]

theorem version_pats_single_pattern (N pat : PyStr) (g : Option (List PyStr))
    (h : fnmatchcase N pat = true) :
    CrateFilter.version_pats ⟨[], [(pat, g)]⟩ N = [g] := by
  rw [CrateFilter.version_pats]
  rw [if_neg (by simp [CrateFilter.is_filtered])]
  simp [dictGet, List.filterMap, h]

theorem filterMatches_sentinel_group {f : CrateFilter} {N V : PyStr}
    (h : f.version_pats N = [none]) : filterMatches f N V = true := by
  rw [filterMatches, CrateFilter.filter_crate_versions, h]
  simp [filter_versions_go]

theorem filterMatches_pats_group {f : CrateFilter} {N V : PyStr}
    {pats : List PyStr} (h : f.version_pats N = [some pats]) :
    filterMatches f N V = pats.any (fun p => fnmatchcase V p) := by
  rw [filterMatches, CrateFilter.filter_crate_versions, h, filter_versions_go]
  simp only [List.filter_cons, List.filter_nil]
  cases hb : pats.any (fun p => fnmatchcase V p) with
  | false => simp [hb, filter_versions_go]
  | true => simp [hb]

theorem add_exact_eval {N V : PyStr} (hat : '@' ∉ N) (hne : N ≠ [])
    (hmeta : _has_meta N = false) (hVne : V ≠ []) (hVstar : V ≠ pys "*") :
    CrateFilter.empty.add (N ++ '@' :: V) = ⟨[(N, some [V])], []⟩ := by
  rw [CrateFilter.add, splitFirstAt_append hat]
  simp [hne, hVne, hmeta, addToMap, hVstar, dictGet, dictSet, CrateFilter.empty]

theorem add_exact_sentinel_eval {N : PyStr} (hat : '@' ∉ N) (hne : N ≠ [])
    (hmeta : _has_meta N = false) :
    CrateFilter.empty.add (N ++ '@' :: ([] : PyStr)) = ⟨[(N, none)], []⟩ := by
  rw [CrateFilter.add, splitFirstAt_append hat]
  simp [hne, hmeta, addToMap, dictSet, CrateFilter.empty]

theorem add_bare_eval {N : PyStr} (hat : '@' ∉ N) (hne : N ≠ [])
    (hmeta : _has_meta N = false) :
    CrateFilter.empty.add N = ⟨[(N, none)], []⟩ := by
  rw [CrateFilter.add, splitFirstAt_none hat]
  simp [hne, hmeta, addToMap, dictSet, CrateFilter.empty]

theorem add_at_eval {vg : PyStr} (h1 : vg ≠ []) (h2 : vg ≠ pys "*") :
    CrateFilter.empty.add ('@' :: vg) = ⟨[], [(pys "*", some [vg])]⟩ := by
  rw [CrateFilter.add]
  rw [show splitFirstAt '@' ('@' :: vg) = some ([], vg) by simp [splitFirstAt]]
  have hm : _has_meta (pys "*") = true := by decide
  simp [h1, h2, hm, addToMap, dictGet, dictSet, CrateFilter.empty]

theorem add_at_sentinel_eval {vg : PyStr} (h : vg = [] ∨ vg = pys "*") :
    CrateFilter.empty.add ('@' :: vg) = ⟨[], [(pys "*", none)]⟩ := by
  rw [CrateFilter.add]
  rw [show splitFirstAt '@' ('@' :: vg) = some ([], vg) by simp [splitFirstAt]]
  have hm : _has_meta (pys "*") = true := by decide
  rcases h with rfl | rfl <;> simp [hm, addToMap, dictSet, CrateFilter.empty]

/-- C5 fails as stated: the claim asserts that a filter `{N@V'}` with
`V' ≠ V` never matches `(N, V)`, but version patterns are globs: the filter
`{a@*}` (with `"*" ≠ "1"`) does match crate `(a, 1)`. -/
theorem C5_counterexample :
    pys "*" ≠ pys "1"
    ∧ filterMatches (CrateFilter.empty.add (pys "a@*")) (pys "a") (pys "1")
      = true :=
  ⟨by decide, by decide⟩

/-- C5 (amended): for a crate name `N` (non-empty, without `@` and without
glob metacharacters) and versions: a filter containing exactly `N@V` with
`V` free of metacharacters matches `(N, V)`; a filter containing exactly
`N@V'` with `V'` non-empty, free of metacharacters, and `V' ≠ V` does not
match `(N, V)`; a bare name pattern `N` matches all versions of `N`; and a
bare `@<vg>` pattern matches every crate whose version glob-matches `vg`. -/
theorem C5_crate_filter_semantics (N V Vp vg : PyStr) :
    ('@' ∉ N → N ≠ [] → _has_meta N = false → _has_meta V = false →
      filterMatches (CrateFilter.empty.add (N ++ '@' :: V)) N V = true)
    ∧ ('@' ∉ N → N ≠ [] → _has_meta N = false → Vp ≠ [] →
      _has_meta Vp = false → Vp ≠ V →
      filterMatches (CrateFilter.empty.add (N ++ '@' :: Vp)) N V = false)
    ∧ ('@' ∉ N → N ≠ [] → _has_meta N = false →
      filterMatches (CrateFilter.empty.add N) N V = true)
    ∧ (fnmatchcase V vg = true →
      filterMatches (CrateFilter.empty.add ('@' :: vg)) N V = true) := by
  refine ⟨?_, ?_, ?_, ?_⟩
  · intro hat hne hmeta hVmeta
    by_cases hV : V = []
    · subst hV
      rw [add_exact_sentinel_eval hat hne hmeta]
      exact filterMatches_sentinel_group (version_pats_single_exact N none)
    · rw [add_exact_eval hat hne hmeta hV (no_meta_ne_star hVmeta)]
      rw [filterMatches_pats_group (version_pats_single_exact N (some [V]))]
      simp [(fnmatchcase_no_meta hVmeta).mpr rfl]
  · intro hat hne hmeta hVpne hVpmeta hVpV
    rw [add_exact_eval hat hne hmeta hVpne (no_meta_ne_star hVpmeta)]
    rw [filterMatches_pats_group (version_pats_single_exact N (some [Vp]))]
    simp only [List.any_cons, List.any_nil, Bool.or_false]
    rw [← Bool.not_eq_true]
    rw [fnmatchcase_no_meta hVpmeta]
    exact fun h => hVpV h.symm
  · intro hat hne hmeta
    rw [add_bare_eval hat hne hmeta]
    exact filterMatches_sentinel_group (version_pats_single_exact N none)
  · intro hmatch
    by_cases hs : vg = [] ∨ vg = pys "*"
    · rw [add_at_sentinel_eval hs]
      exact filterMatches_sentinel_group
        (version_pats_single_pattern N (pys "*") none (fnmatchcase_star N))
    · push_neg at hs
      rw [add_at_eval hs.1 hs.2]
      rw [filterMatches_pats_group
        (version_pats_single_pattern N (pys "*") (some [vg]) (fnmatchcase_star N))]
      simp [hmatch]

/-- Witness for C5: crate `foo@1.0.0`; exact filter matches, a different
exact version does not, bare name matches, and `@1.*` matches by glob. -/
theorem C5_crate_filter_semantics_witness :
    filterMatches (CrateFilter.empty.add (pys "foo" ++ '@' :: pys "1.0.0"))
      (pys "foo") (pys "1.0.0") = true
    ∧ filterMatches (CrateFilter.empty.add (pys "foo" ++ '@' :: pys "2.0.0"))
      (pys "foo") (pys "1.0.0") = false
    ∧ filterMatches (CrateFilter.empty.add (pys "foo")) (pys "foo")
      (pys "1.0.0") = true
    ∧ filterMatches (CrateFilter.empty.add ('@' :: pys "1.*")) (pys "foo")
      (pys "1.0.0") = true :=
  ⟨(C5_crate_filter_semantics (pys "foo") (pys "1.0.0") (pys "2.0.0")
      (pys "1.*")).1 (by decide) (by decide) (by decide) (by decide),
    (C5_crate_filter_semantics (pys "foo") (pys "1.0.0") (pys "2.0.0")
      (pys "1.*")).2.1 (by decide) (by decide) (by decide) (by decide)
      (by decide) (by decide),
    (C5_crate_filter_semantics (pys "foo") (pys "1.0.0") (pys "2.0.0")
      (pys "1.*")).2.2.1 (by decide) (by decide) (by decide),
    (C5_crate_filter_semantics (pys "foo") (pys "1.0.0") (pys "2.0.0")
      (pys "1.*")).2.2.2 (by decide)⟩

theorem mem_dictInsertCrate {d : List (PyStr × Crate)} {k : PyStr} {c : Crate}
    {kv : PyStr × Crate} (h : kv ∈ dictInsertCrate d k c) :
    kv ∈ d ∨ kv = (k, c) := by
  rw [dictInsertCrate] at h
  split at h
  · rcases List.mem_map.mp h with ⟨kv0, hkv0, heq⟩
    by_cases hk : kv0.1 = k
    · right
      rw [← heq, if_pos hk]
    · left
      rw [← heq, if_neg hk]
      exact hkv0
  · rcases List.mem_append.mp h with h | h
    · exact Or.inl h
    · right
      simpa using h

theorem crates_by_version_fst :
    ∀ (l : List Crate) (d : List (PyStr × Crate)),
      (∀ kv ∈ d, kv.1 = kv.2.version) →
      ∀ kv ∈ l.foldl (fun d c => dictInsertCrate d c.version c) d,
        kv.1 = kv.2.version := by
  intro l
  induction l with
  | nil =>
    intro d hd kv hkv
    exact hd kv hkv
  | cons c l ih =>
    intro d hd kv hkv
    rw [List.foldl_cons] at hkv
    refine ih _ ?_ kv hkv
    intro kv0 hkv0
    rcases mem_dictInsertCrate hkv0 with h | h
    · exact hd kv0 h
    · rw [h]

theorem keys_dictInsertCrate (d : List (PyStr × Crate)) (k : PyStr) (c : Crate) :
    (dictInsertCrate d k c).map Prod.fst
      = if d.any (fun kv => kv.1 = k) then d.map Prod.fst
        else d.map Prod.fst ++ [k] := by
  rw [dictInsertCrate]
  split
  · rw [List.map_map]
    apply List.map_congr_left
    intro kv _
    by_cases hk : kv.1 = k
    · simp [hk]
    · simp [hk]
  · simp

theorem keys_nodup_crates_by_version :
    ∀ (l : List Crate) (d : List (PyStr × Crate)),
      (d.map Prod.fst).Nodup →
      ((l.foldl (fun d c => dictInsertCrate d c.version c) d).map Prod.fst).Nodup := by
  intro l
  induction l with
  | nil =>
    intro d hd
    exact hd
  | cons c l ih =>
    intro d hd
    rw [List.foldl_cons]
    refine ih _ ?_
    rw [keys_dictInsertCrate]
    split
    · exact hd
    · rename_i hany
      rw [List.nodup_append]
      refine ⟨hd, List.nodup_singleton _, ?_⟩
      intro x hx
      simp only [List.mem_singleton]
      rintro rfl
      rcases List.mem_map.mp hx with ⟨kv, hkv, hfst⟩
      rw [List.any_eq_true] at hany
      push_neg at hany
      exact absurd (by simpa using hfst) (by simpa using hany kv hkv)

theorem find?_map_replace_ne {k : PyStr} {c : Crate} {v : PyStr} (hv : v ≠ k) :
    ∀ d : List (PyStr × Crate),
      (d.map (fun kv => if kv.1 = k then (k, c) else kv)).find?
          (fun kv => kv.1 = v)
        = d.find? (fun kv => kv.1 = v) := by
  intro d
  induction d with
  | nil => rfl
  | cons hd tl ih =>
    rw [List.map_cons, List.find?_cons, List.find?_cons]
    by_cases hk : hd.1 = k
    · rw [if_pos hk]
      have h1 : (decide ((k, c).1 = v)) = false := by
        simp only [decide_eq_false_iff_not]
        exact fun h => hv h.symm
      have h2 : (decide (hd.1 = v)) = false := by
        simp only [decide_eq_false_iff_not]
        rw [hk]
        exact fun h => hv h.symm
      rw [h1, h2]
      exact ih
    · rw [if_neg hk]
      cases hp : (decide (hd.1 = v))
      · exact ih
      · rfl

theorem find?_map_replace_eq {k : PyStr} {c : Crate} :
    ∀ d : List (PyStr × Crate), d.any (fun kv => kv.1 = k) = true →
      (d.map (fun kv => if kv.1 = k then (k, c) else kv)).find?
          (fun kv => kv.1 = k)
        = some (k, c) := by
  intro d
  induction d with
  | nil =>
    intro h
    simp at h
  | cons hd tl ih =>
    intro h
    rw [List.map_cons, List.find?_cons]
    by_cases hk : hd.1 = k
    · rw [if_pos hk]
      simp
    · rw [if_neg hk]
      have h2 : (decide (hd.1 = k)) = false := by simpa using hk
      rw [h2]
      apply ih
      rw [List.any_cons, h2, Bool.false_or] at h
      exact h

theorem dictGetCrate_insert (d : List (PyStr × Crate)) (k : PyStr) (c : Crate)
    (v : PyStr) :
    dictGetCrate (dictInsertCrate d k c) v
      = if v = k then some c else dictGetCrate d v := by
  rw [dictInsertCrate, dictGetCrate]
  split
  · rename_i hany
    by_cases hv : v = k
    · subst hv
      rw [if_pos rfl, find?_map_replace_eq d hany]
      rfl
    · rw [if_neg hv, find?_map_replace_ne hv d]
      rfl
  · rename_i hany
    rw [List.find?_append]
    by_cases hv : v = k
    · subst hv
      rw [if_pos rfl]
      have hnone : d.find? (fun kv => kv.1 = v) = none := by
        rw [List.find?_eq_none]
        intro kv hkv
        simp only [decide_eq_true_eq]
        intro heq
        rw [List.any_eq_true] at hany
        exact hany ⟨kv, hkv, by simpa using heq⟩
      rw [hnone]
      simp
    · rw [if_neg hv]
      have h1 : ([(k, c)].find? (fun kv => kv.1 = v)) = none := by
        simp only [List.find?_singleton]
        rw [if_neg (by simpa using fun h => hv (Eq.symm h))]
      rw [h1, dictGetCrate]
      cases d.find? (fun kv => kv.1 = v) <;> rfl

theorem lastVersionRecord_cons (c : Crate) (l : List Crate) (v : PyStr) :
    lastVersionRecord (c :: l) v
      = match lastVersionRecord l v with
        | some c2 => some c2
        | none => if c.version = v then some c else none := by
  rw [lastVersionRecord, lastVersionRecord, List.filter_cons]
  by_cases hc : c.version = v
  · rw [if_pos (by simpa using hc), List.getLast?_cons]
    cases hrec : (List.filter (fun x => decide (x.version = v)) l).getLast? <;>
      simp [hc]
  · rw [if_neg (by simpa using hc)]
    cases hrec : (List.filter (fun x => decide (x.version = v)) l).getLast? <;>
      simp [hc]

theorem dictGetCrate_crates_by_version :
    ∀ (l : List Crate) (d : List (PyStr × Crate)) (v : PyStr),
      dictGetCrate (l.foldl (fun d c => dictInsertCrate d c.version c) d) v
        = match lastVersionRecord l v with
          | some c2 => some c2
          | none => dictGetCrate d v := by
  intro l
  induction l with
  | nil =>
    intro d v
    rw [List.foldl_nil]
    have h : lastVersionRecord [] v = none := rfl
    rw [h]
  | cons c l ih =>
    intro d v
    rw [List.foldl_cons, ih, lastVersionRecord_cons]
    cases hrec : lastVersionRecord l v with
    | some c2 => rfl
    | none =>
      rw [dictGetCrate_insert]
      by_cases hv : v = c.version
      · rw [if_pos hv, if_pos hv.symm]
      · rw [if_neg hv, if_neg (fun h => hv h.symm)]

theorem lookup_crates_by_version (l : List Crate) (v : PyStr) :
    dictGetCrate (crates_by_version l) v = lastVersionRecord l v := by
  rw [crates_by_version, dictGetCrate_crates_by_version]
  cases lastVersionRecord l v <;> rfl

theorem dictHasVersion_crates_by_version (l : List Crate) (v : PyStr) :
    dictHasVersion (crates_by_version l) v = (lastVersionRecord l v).isSome := by
  have h1 : dictHasVersion (crates_by_version l) v
      = (dictGetCrate (crates_by_version l) v).isSome := by
    rw [dictHasVersion, dictGetCrate]
    cases hf : (crates_by_version l).find? (fun kv => kv.1 = v) with
    | none =>
      rw [List.find?_eq_none] at hf
      simp only [Option.map_none', Option.isSome_none]
      rw [List.any_eq_false]
      intro kv hkv
      exact hf kv hkv
    | some kv =>
      simp only [Option.map_some', Option.isSome_some]
      rw [List.any_eq_true]
      exact ⟨kv, List.mem_of_find?_eq_some hf, by simpa using List.find?_some hf⟩
  rw [h1, lookup_crates_by_version]

theorem mem_dict_iff_lookup {d : List (PyStr × Crate)}
    (hnd : (d.map Prod.fst).Nodup) (kv : PyStr × Crate) :
    kv ∈ d ↔ d.find? (fun x => x.1 = kv.1) = some kv := by
  constructor
  · intro hmem
    induction d with
    | nil => simp at hmem
    | cons hd tl ih =>
      rcases List.mem_cons.mp hmem with rfl | hmem2
      · rw [List.find?_cons_of_pos _ (by simp)]
      · have hne : hd.1 ≠ kv.1 := by
          rw [List.map_cons, List.nodup_cons] at hnd
          intro heq
          exact hnd.1 (heq ▸ List.mem_map.mpr ⟨kv, hmem2, rfl⟩)
        rw [List.find?_cons_of_neg _ (by simpa using hne)]
        exact ih (by
          rw [List.map_cons, List.nodup_cons] at hnd
          exact hnd.2) hmem2
  · intro hf
    exact List.mem_of_find?_eq_some hf

theorem keys_nodup_cbv (l : List Crate) :
    ((crates_by_version l).map Prod.fst).Nodup :=
  keys_nodup_crates_by_version l [] (by simp)

theorem mem_crates_by_version_iff (l : List Crate) (c : Crate) :
    (c.version, c) ∈ crates_by_version l
      ↔ lastVersionRecord l c.version = some c := by
  rw [mem_dict_iff_lookup (keys_nodup_cbv l)]
  show (crates_by_version l).find? (fun x => x.1 = c.version) = some (c.version, c)
    ↔ _
  constructor
  · intro h
    have := lookup_crates_by_version l c.version
    rw [dictGetCrate, h] at this
    exact this.symm
  · intro h
    have hl := lookup_crates_by_version l c.version
    rw [h, dictGetCrate] at hl
    cases hf : (crates_by_version l).find? (fun x => x.1 = c.version) with
    | none =>
      rw [hf] at hl
      simp at hl
    | some kv =>
      rw [hf] at hl
      simp only [Option.map_some', Option.some.injEq] at hl
      have hfst : kv.1 = c.version := by
        simpa using List.find?_some hf
      congr 1
      calc kv = (kv.1, kv.2) := rfl
        _ = (c.version, c) := by rw [hfst, hl]

theorem mem_crates_by_version_fst {l : List Crate} {kv : PyStr × Crate}
    (h : kv ∈ crates_by_version l) : kv.1 = kv.2.version :=
  crates_by_version_fst l [] (by simp) kv h

theorem mem_crate_changes_added (fv : List PyStr) (sb eb : List Crate)
    (c : Crate) :
    c ∈ crate_changes_added fv (crates_by_version sb) (crates_by_version eb)
      ↔ (lastVersionRecord eb c.version = some c
        ∧ c.version ∈ fv
        ∧ (lastVersionRecord sb c.version = none
          ∨ ∃ c2, lastVersionRecord sb c.version = some c2
              ∧ c2.hash ≠ c.hash)) := by
  rw [crate_changes_added, List.mem_filterMap]
  constructor
  · rintro ⟨kv, hmem, hf⟩
    simp only at hf
    split at hf
    · rename_i hcond
      simp only [Option.some.injEq] at hf
      have hfst : kv.1 = kv.2.version := mem_crates_by_version_fst hmem
      have hkv : kv = (c.version, c) := by
        calc kv = (kv.1, kv.2) := rfl
          _ = (c.version, c) := by rw [hfst, hf]
      rw [hkv] at hmem hcond
      refine ⟨(mem_crates_by_version_iff eb c).mp hmem, hcond.1, ?_⟩
      have hc2 := hcond.2
      rw [show ((c.version, c) : PyStr × Crate).1 = c.version from rfl,
        lookup_crates_by_version] at hc2
      cases hrec : lastVersionRecord sb c.version with
      | none => exact Or.inl rfl
      | some c2 =>
        rw [hrec] at hc2
        simp only [decide_eq_true_eq] at hc2
        exact Or.inr ⟨c2, rfl, hc2⟩
    · exact absurd hf (by simp)
  · rintro ⟨hlast, hfv, hold⟩
    refine ⟨(c.version, c), (mem_crates_by_version_iff eb c).mpr hlast, ?_⟩
    simp only
    rw [if_pos]
    constructor
    · exact hfv
    · rw [lookup_crates_by_version]
      rcases hold with h | ⟨c2, h, hh⟩
      · rw [h]
      · rw [h]
        simpa using hh

theorem mem_crate_changes_removed (fv : List PyStr) (sb eb : List Crate)
    (c : Crate) :
    c ∈ crate_changes_removed fv (crates_by_version sb) (crates_by_version eb)
      ↔ (lastVersionRecord sb c.version = some c
        ∧ c.version ∈ fv
        ∧ lastVersionRecord eb c.version = none) := by
  rw [crate_changes_removed, List.mem_filterMap]
  constructor
  · rintro ⟨kv, hmem, hf⟩
    split at hf
    · rename_i hcond
      simp only [Option.some.injEq] at hf
      have hfst : kv.1 = kv.2.version := mem_crates_by_version_fst hmem
      have hkv : kv = (c.version, c) := by
        calc kv = (kv.1, kv.2) := rfl
          _ = (c.version, c) := by rw [hfst, hf]
      rw [hkv] at hmem hcond
      refine ⟨(mem_crates_by_version_iff sb c).mp hmem, hcond.1, ?_⟩
      have h2 := hcond.2
      rw [show ((c.version, c) : PyStr × Crate).1 = c.version from rfl,
        dictHasVersion_crates_by_version] at h2
      cases hrec : lastVersionRecord eb c.version with
      | none => rfl
      | some c2 =>
        rw [hrec] at h2
        simp at h2
    · exact absurd hf (by simp)
  · rintro ⟨hlast, hfv, hnone⟩
    refine ⟨(c.version, c), (mem_crates_by_version_iff sb c).mpr hlast, ?_⟩
    rw [if_pos]
    constructor
    · exact hfv
    · rw [show ((c.version, c) : PyStr × Crate).1 = c.version from rfl,
        dictHasVersion_crates_by_version, hnone]
      simp

/-- C3: for every changed index blob at a canonical index path, per-blob
delta membership: `added` holds exactly the end-blob records whose
`(version, hash)` is new relative to the start blob (version absent, or
present with a different hash), and `removed` exactly the start-blob records
whose version is gone from the end blob — both restricted to versions
selected by the filter (applied to the lowercased blob basename over the
union of old and new versions). -/
theorem C3_crate_delta_per_blob (crate_filter : CrateFilter) (path : PyStr)
    (start_blob end_blob : List Crate) (c : Crate)
    (hpath : crateIndexPathOk path = true) :
    (c ∈ (crate_changes_for_blob crate_filter path start_blob end_blob).1
      ↔ (lastVersionRecord end_blob c.version = some c
        ∧ c.version ∈ crate_filter.filter_crate_versions
            (pyLower (pyBasename path))
            (((crates_by_version start_blob).map Prod.fst
              ++ (crates_by_version end_blob).map Prod.fst).dedup)
        ∧ (lastVersionRecord start_blob c.version = none
          ∨ ∃ c2, lastVersionRecord start_blob c.version = some c2
              ∧ c2.hash ≠ c.hash)))
    ∧ (c ∈ (crate_changes_for_blob crate_filter path start_blob end_blob).2
      ↔ (lastVersionRecord start_blob c.version = some c
        ∧ c.version ∈ crate_filter.filter_crate_versions
            (pyLower (pyBasename path))
            (((crates_by_version start_blob).map Prod.fst
              ++ (crates_by_version end_blob).map Prod.fst).dedup)
        ∧ lastVersionRecord end_blob c.version = none)) := by
  have hre : crate_changes_for_blob crate_filter path start_blob end_blob
      = (crate_changes_added
          (crate_filter.filter_crate_versions (pyLower (pyBasename path))
            (((crates_by_version start_blob).map Prod.fst
              ++ (crates_by_version end_blob).map Prod.fst).dedup))
          (crates_by_version start_blob) (crates_by_version end_blob),
        crate_changes_removed
          (crate_filter.filter_crate_versions (pyLower (pyBasename path))
            (((crates_by_version start_blob).map Prod.fst
              ++ (crates_by_version end_blob).map Prod.fst).dedup))
          (crates_by_version start_blob) (crates_by_version end_blob)) := by
    rw [crate_changes_for_blob, if_neg (by simp [hpath])]
  rw [hre]
  exact ⟨mem_crate_changes_added _ start_blob end_blob c,
    mem_crate_changes_removed _ start_blob end_blob c⟩

theorem C3_crate_delta_per_blob_witness :
    crateIndexPathOk c3_path = true
    ∧ ((c3_c ∈ (crate_changes_for_blob CrateFilter.empty c3_path c3_sb c3_eb).1
        ↔ (lastVersionRecord c3_eb c3_c.version = some c3_c
          ∧ c3_c.version ∈ CrateFilter.empty.filter_crate_versions
              (pyLower (pyBasename c3_path))
              (((crates_by_version c3_sb).map Prod.fst
                ++ (crates_by_version c3_eb).map Prod.fst).dedup)
          ∧ (lastVersionRecord c3_sb c3_c.version = none
            ∨ ∃ c2, lastVersionRecord c3_sb c3_c.version = some c2
                ∧ c2.hash ≠ c3_c.hash)))
      ∧ (c3_c ∈ (crate_changes_for_blob CrateFilter.empty c3_path c3_sb c3_eb).2
        ↔ (lastVersionRecord c3_sb c3_c.version = some c3_c
          ∧ c3_c.version ∈ CrateFilter.empty.filter_crate_versions
              (pyLower (pyBasename c3_path))
              (((crates_by_version c3_sb).map Prod.fst
                ++ (crates_by_version c3_eb).map Prod.fst).dedup)
          ∧ lastVersionRecord c3_eb c3_c.version = none))) :=
  ⟨by decide,
    C3_crate_delta_per_blob CrateFilter.empty c3_path c3_sb c3_eb c3_c
      (by decide)⟩

theorem crate_unpack_step_af_abort (ps : PrefixStyle) (st : CrateUnpackState)
    (m : TarMember) (hd : m.isDir = false) (hn : m.name = pys "ARCHIVE_FORMAT")
    (hf : st.found_file = true) :
    crate_unpack_step ps st m
      = Except.error (pys "Unexpected ARCHIVE_FORMAT (not at archive start)") := by
  rw [crate_unpack_step, if_neg (by simp [hd]), if_pos hn, if_pos hf]

theorem crate_unpack_step_ok_found_file (ps : PrefixStyle)
    (st st2 : CrateUnpackState) (m : TarMember) (hd : m.isDir = false)
    (h : crate_unpack_step ps st m = Except.ok st2) :
    st2.found_file = true := by
  rw [crate_unpack_step, if_neg (by simp [hd])] at h
  repeat' split at h
  all_goals simp at h
  all_goals rw [← h]

theorem crate_unpack_step_dir (ps : PrefixStyle) (st : CrateUnpackState)
    (m : TarMember) (hd : m.isDir = true) :
    crate_unpack_step ps st m = Except.ok st := by
  rw [crate_unpack_step, if_pos (by simp [hd])]

theorem crate_unpack_loop_af_no_ok (ps : PrefixStyle) (m : TarMember)
    (hd : m.isDir = false) (hn : m.name = pys "ARCHIVE_FORMAT") :
    ∀ (pre : List TarMember) (st : CrateUnpackState),
      (st.found_file = true ∨ ∃ p ∈ pre, p.isDir = false) →
      ∀ (post : List TarMember) (st2 : CrateUnpackState),
        crate_unpack_loop ps st (pre ++ m :: post) ≠ Except.ok st2 := by
  intro pre
  induction pre with
  | nil =>
    intro st h post st2 hc
    rcases h with hf | ⟨p, hp, _⟩
    · rw [List.nil_append, crate_unpack_loop,
        crate_unpack_step_af_abort ps st m hd hn hf] at hc
      exact absurd hc (by simp)
    · simp at hp
  | cons p pre ih =>
    intro st h post st2 hc
    rw [List.cons_append, crate_unpack_loop] at hc
    cases hstep : crate_unpack_step ps st p with
    | error e =>
      rw [hstep] at hc
      exact absurd hc (by simp)
    | ok st3 =>
      rw [hstep] at hc
      refine ih st3 ?_ post st2 hc
      by_cases hpd : p.isDir = false
      · exact Or.inl (crate_unpack_step_ok_found_file ps st st3 p hpd hstep)
      · rcases h with hf | ⟨q, hq, hqd⟩
        · left
          have hpt : p.isDir = true := by
            revert hpd; cases p.isDir <;> simp
          rw [crate_unpack_step_dir ps st p hpt] at hstep
          rw [Except.ok.injEq] at hstep
          rw [← hstep]
          exact hf
        · rcases List.mem_cons.mp hq with rfl | hq2
          · exact absurd hqd hpd
          · exact Or.inr ⟨q, hq2, hqd⟩

/-- C2 fails as stated: `crate.unpack` does not require the first regular
member to be `ARCHIVE_FORMAT`. An archive whose first regular member is a
valid crate under `crates/` (followed by the index bundle) is accepted — the
archive prefix style simply defaults to `MIXED`. -/
theorem C2_counterexample :
    (crate_unpack PrefixStyle.MIXED false
      [⟨pys "crates/3/f/foo/foo-1.0.0.crate", false, some []⟩,
        ⟨INDEX_BUNDLE_PACKED_NAME, false, some []⟩]).isOk = true
    ∧ pys "crates/3/f/foo/foo-1.0.0.crate" ≠ pys "ARCHIVE_FORMAT"
    ∧ (⟨pys "crates/3/f/foo/foo-1.0.0.crate", false, some []⟩
        : TarMember).isDir = false := by
  refine ⟨by decide, by decide, rfl⟩

/-- C2 (amended): an `ARCHIVE_FORMAT` member encountered after any other
regular (non-directory) member causes the unpack to abort — at the step
level it yields exactly the "Unexpected ARCHIVE_FORMAT (not at archive
start)" abort once a regular member has been seen; any successfully
processed regular member marks `found_file`; and consequently a whole
archive with a regular member anywhere before an `ARCHIVE_FORMAT` member is
never unpacked successfully. An archive whose first regular member is not
`ARCHIVE_FORMAT` is not rejected on that ground (the prefix style defaults
to `MIXED`). -/
theorem C2_archive_format_first (ps : PrefixStyle) (st st2 : CrateUnpackState)
    (m m2 : TarMember) (kg : Bool) (pre post : List TarMember) :
    (st.found_file = true → m.isDir = false →
      m.name = pys "ARCHIVE_FORMAT" →
      crate_unpack_step ps st m
        = Except.error (pys "Unexpected ARCHIVE_FORMAT (not at archive start)"))
    ∧ (m2.isDir = false → crate_unpack_step ps st m2 = Except.ok st2 →
      st2.found_file = true)
    ∧ (m.isDir = false → m.name = pys "ARCHIVE_FORMAT" →
      (∃ p ∈ pre, p.isDir = false) →
      crate_unpack ps kg (pre ++ m :: post) ≠ Except.ok st2) := by
  refine ⟨fun hf hd hn => crate_unpack_step_af_abort ps st m hd hn hf,
    fun hd h => crate_unpack_step_ok_found_file ps st st2 m2 hd h,
    fun hd hn hpre hc => ?_⟩
  rw [crate_unpack] at hc
  cases hloop : crate_unpack_loop ps crate_unpack_init (pre ++ m :: post) with
  | error e =>
    rw [hloop] at hc
    exact absurd hc (by simp)
  | ok st3 =>
    exact crate_unpack_loop_af_no_ok ps m hd hn pre crate_unpack_init
      (Or.inr hpre) post st3 hloop

/-- Witness for C2 at concrete inputs: the step-level abort on a second
`ARCHIVE_FORMAT`, `found_file` after unpacking the bundle member from the
initial state, and rejection of a whole archive whose `ARCHIVE_FORMAT`
follows a regular crate member. -/
theorem C2_archive_format_first_witness :
    crate_unpack_step PrefixStyle.MIXED
      ⟨true, false, PrefixStyle.MIXED, 0, []⟩
      ⟨pys "ARCHIVE_FORMAT", false, some (pys "1")⟩
      = Except.error (pys "Unexpected ARCHIVE_FORMAT (not at archive start)")
    ∧ (⟨true, true, PrefixStyle.MIXED, 0, []⟩
        : CrateUnpackState).found_file = true
    ∧ crate_unpack PrefixStyle.MIXED false
        [⟨pys "crates/3/f/foo/foo-1.0.0.crate", false, some []⟩,
          ⟨pys "ARCHIVE_FORMAT", false, some (pys "1")⟩,
          ⟨INDEX_BUNDLE_PACKED_NAME, false, some []⟩]
        ≠ Except.ok ⟨true, true, PrefixStyle.MIXED, 0, []⟩ :=
  ⟨(C2_archive_format_first PrefixStyle.MIXED
      ⟨true, false, PrefixStyle.MIXED, 0, []⟩
      ⟨true, true, PrefixStyle.MIXED, 0, []⟩
      ⟨pys "ARCHIVE_FORMAT", false, some (pys "1")⟩
      ⟨INDEX_BUNDLE_PACKED_NAME, false, some []⟩ false
      [⟨pys "crates/3/f/foo/foo-1.0.0.crate", false, some []⟩]
      [⟨INDEX_BUNDLE_PACKED_NAME, false, some []⟩]).1
      (by decide) (by decide) (by decide),
    (C2_archive_format_first PrefixStyle.MIXED crate_unpack_init
      ⟨true, true, PrefixStyle.MIXED, 0, []⟩
      ⟨pys "ARCHIVE_FORMAT", false, some (pys "1")⟩
      ⟨INDEX_BUNDLE_PACKED_NAME, false, some []⟩ false
      [⟨pys "crates/3/f/foo/foo-1.0.0.crate", false, some []⟩]
      [⟨INDEX_BUNDLE_PACKED_NAME, false, some []⟩]).2.1
      (by decide) rfl,
    (C2_archive_format_first PrefixStyle.MIXED crate_unpack_init
      ⟨true, true, PrefixStyle.MIXED, 0, []⟩
      ⟨pys "ARCHIVE_FORMAT", false, some (pys "1")⟩
      ⟨INDEX_BUNDLE_PACKED_NAME, false, some []⟩ false
      [⟨pys "crates/3/f/foo/foo-1.0.0.crate", false, some []⟩]
      [⟨INDEX_BUNDLE_PACKED_NAME, false, some []⟩]).2.2
      (by decide) (by decide)
      ⟨⟨pys "crates/3/f/foo/foo-1.0.0.crate", false, some []⟩,
        by decide, by decide⟩⟩

theorem crate_unpack_step_other_err (ps : PrefixStyle) (st : CrateUnpackState)
    (m : TarMember) (hd : m.isDir = false)
    (h1 : m.name ≠ pys "ARCHIVE_FORMAT")
    (h2 : m.name ≠ INDEX_BUNDLE_PACKED_NAME)
    (h3 : (pys "crates/").isPrefixOf m.name = false) :
    crate_unpack_step ps st m
      = Except.error (pys "Unexpected archive member " ++ m.name) := by
  rw [crate_unpack_step, if_neg (by simp [hd]), if_neg h1, if_neg h2,
    if_neg (by simp [h3])]

theorem crate_unpack_loop_err_no_ok (ps : PrefixStyle) (m : TarMember)
    (hstep : ∀ st : CrateUnpackState, ∃ e,
      crate_unpack_step ps st m = Except.error e) :
    ∀ (pre : List TarMember) (st : CrateUnpackState) (post : List TarMember)
      (st2 : CrateUnpackState),
      crate_unpack_loop ps st (pre ++ m :: post) ≠ Except.ok st2 := by
  intro pre
  induction pre with
  | nil =>
    intro st post st2 hc
    obtain ⟨e, he⟩ := hstep st
    rw [List.nil_append, crate_unpack_loop, he] at hc
    exact absurd hc (by simp)
  | cons p pre ih =>
    intro st post st2 hc
    rw [List.cons_append, crate_unpack_loop] at hc
    cases hs : crate_unpack_step ps st p with
    | error e =>
      rw [hs] at hc
      exact absurd hc (by simp)
    | ok st3 =>
      rw [hs] at hc
      exact ih st3 post st2 hc

theorem dist_unpack_loop_err (check : PyStr) (strip : Nat) (m : TarMember)
    (hd : m.isDir = false) (hp : check.isPrefixOf m.name = false) :
    ∀ (pre : List TarMember) (ex : List PyStr) (post : List TarMember),
      ∃ nm, dist_unpack_loop check strip ex (pre ++ m :: post)
          = Except.error (UnpackErr.unexpectedMember nm)
        ∧ check.isPrefixOf nm = false := by
  intro pre
  induction pre with
  | nil =>
    intro ex post
    refine ⟨m.name, ?_, hp⟩
    rw [List.nil_append, dist_unpack_loop, if_neg (by simp [hd]),
      if_neg (by simp [hp])]
  | cons p pre ih =>
    intro ex post
    rw [List.cons_append, dist_unpack_loop]
    by_cases hpd : p.isDir = true
    · rw [if_pos (by simp [hpd])]
      exact ih ex post
    · rw [if_neg (by simp at hpd; simp [hpd])]
      by_cases hpp : check.isPrefixOf p.name = true
      · rw [if_pos (by simp [hpp])]
        exact ih (setAdd ex (p.name.drop strip)) post
      · rw [if_neg (by simp at hpp; simp [hpp])]
        refine ⟨p.name, rfl, ?_⟩
        revert hpp
        cases List.isPrefixOf check p.name <;> simp

/-- C6 fails as stated: `keep_going` does not make unpack tolerate members
outside the allowed roots — `crate.unpack` with `keep_going = true` still
aborts on an unexpected member; and for rustup archives the enforced root is
`rustup/archive/`, not `rustup/`: a regular member `rustup/other.txt` under
the claimed `rustup/` root raises `UnexpectedArchiveMemberError`. -/
theorem C6_counterexample :
    crate_unpack PrefixStyle.MIXED true
      [⟨pys "evil.txt", false, some []⟩,
        ⟨INDEX_BUNDLE_PACKED_NAME, false, some []⟩]
      = Except.error (pys "Unexpected archive member evil.txt")
    ∧ rustup_cmd_unpack [⟨pys "rustup/other.txt", false, some []⟩]
      = Except.error (UnpackErr.unexpectedMember (pys "rustup/other.txt"))
    ∧ (pys "rustup/").isPrefixOf (pys "rustup/other.txt") = true := by
  refine ⟨rfl, rfl, by decide⟩

/-- C6 (amended): a regular archive member outside the allowed roots makes
unpack fail regardless of `keep_going`, which is never consulted: for crate
archives (roots `ARCHIVE_FORMAT`, the packed index bundle, and `crates/`)
`crate.unpack` never succeeds on such an archive and behaves identically for
both values of `keep_going`; for toolchain archives the loop fails with
`UnexpectedArchiveMemberError` naming a member outside `dist/`; for rustup
archives the enforced root is `rustup/archive/` and the loop fails with
`UnexpectedArchiveMemberError` naming a member outside it. -/
theorem C6_unexpected_member (ps : PrefixStyle) (kg : Bool)
    (pre post : List TarMember) (m : TarMember)
    (st2 : CrateUnpackState) (members : List TarMember) :
    (m.isDir = false → m.name ≠ pys "ARCHIVE_FORMAT" →
      m.name ≠ INDEX_BUNDLE_PACKED_NAME →
      (pys "crates/").isPrefixOf m.name = false →
      crate_unpack ps kg (pre ++ m :: post) ≠ Except.ok st2)
    ∧ crate_unpack ps true members = crate_unpack ps false members
    ∧ (m.isDir = false → (pys "dist/").isPrefixOf m.name = false →
      ∃ nm, toolchain_cmd_unpack (pre ++ m :: post)
          = Except.error (UnpackErr.unexpectedMember nm)
        ∧ (pys "dist/").isPrefixOf nm = false)
    ∧ (m.isDir = false → (pys "rustup/archive/").isPrefixOf m.name = false →
      ∃ nm, rustup_cmd_unpack (pre ++ m :: post)
          = Except.error (UnpackErr.unexpectedMember nm)
        ∧ (pys "rustup/archive/").isPrefixOf nm = false) := by
  refine ⟨fun hd h1 h2 h3 hc => ?_, rfl,
    fun hd hp => dist_unpack_loop_err (pys "dist/") 5 m hd hp pre [] post,
    fun hd hp =>
      dist_unpack_loop_err (pys "rustup/archive/") 7 m hd hp pre [] post⟩
  rw [crate_unpack] at hc
  cases hloop : crate_unpack_loop ps crate_unpack_init (pre ++ m :: post) with
  | error e =>
    rw [hloop] at hc
    exact absurd hc (by simp)
  | ok st3 =>
    exact crate_unpack_loop_err_no_ok ps m
      (fun st => ⟨pys "Unexpected archive member " ++ m.name,
        crate_unpack_step_other_err ps st m hd h1 h2 h3⟩)
      pre crate_unpack_init post st3 hloop

/-- Witness for C6 at concrete inputs: a stray `evil.txt` member makes crate
unpack fail even though the bundle follows, `keep_going` is irrelevant on
that archive, and the toolchain and rustup loops report the stray member. -/
theorem C6_unexpected_member_witness :
    crate_unpack PrefixStyle.MIXED true
      ([] ++ ⟨pys "evil.txt", false, some []⟩
        :: [⟨INDEX_BUNDLE_PACKED_NAME, false, some []⟩])
      ≠ Except.ok crate_unpack_init
    ∧ crate_unpack PrefixStyle.MIXED true
        [⟨pys "evil.txt", false, some []⟩,
          ⟨INDEX_BUNDLE_PACKED_NAME, false, some []⟩]
      = crate_unpack PrefixStyle.MIXED false
        [⟨pys "evil.txt", false, some []⟩,
          ⟨INDEX_BUNDLE_PACKED_NAME, false, some []⟩]
    ∧ (∃ nm, toolchain_cmd_unpack
        ([] ++ ⟨pys "evil.txt", false, some []⟩
          :: [⟨INDEX_BUNDLE_PACKED_NAME, false, some []⟩])
          = Except.error (UnpackErr.unexpectedMember nm)
        ∧ (pys "dist/").isPrefixOf nm = false)
    ∧ (∃ nm, rustup_cmd_unpack
        ([] ++ ⟨pys "evil.txt", false, some []⟩
          :: [⟨INDEX_BUNDLE_PACKED_NAME, false, some []⟩])
          = Except.error (UnpackErr.unexpectedMember nm)
        ∧ (pys "rustup/archive/").isPrefixOf nm = false) :=
  ⟨(C6_unexpected_member PrefixStyle.MIXED true []
      [⟨INDEX_BUNDLE_PACKED_NAME, false, some []⟩]
      ⟨pys "evil.txt", false, some []⟩ crate_unpack_init
      [⟨pys "evil.txt", false, some []⟩,
        ⟨INDEX_BUNDLE_PACKED_NAME, false, some []⟩]).1
      (by decide) (by decide) (by decide) (by decide),
    (C6_unexpected_member PrefixStyle.MIXED true []
      [⟨INDEX_BUNDLE_PACKED_NAME, false, some []⟩]
      ⟨pys "evil.txt", false, some []⟩ crate_unpack_init
      [⟨pys "evil.txt", false, some []⟩,
        ⟨INDEX_BUNDLE_PACKED_NAME, false, some []⟩]).2.1,
    (C6_unexpected_member PrefixStyle.MIXED true []
      [⟨INDEX_BUNDLE_PACKED_NAME, false, some []⟩]
      ⟨pys "evil.txt", false, some []⟩ crate_unpack_init
      [⟨pys "evil.txt", false, some []⟩,
        ⟨INDEX_BUNDLE_PACKED_NAME, false, some []⟩]).2.2.1
      (by decide) (by decide),
    (C6_unexpected_member PrefixStyle.MIXED true []
      [⟨INDEX_BUNDLE_PACKED_NAME, false, some []⟩]
      ⟨pys "evil.txt", false, some []⟩ crate_unpack_init
      [⟨pys "evil.txt", false, some []⟩,
        ⟨INDEX_BUNDLE_PACKED_NAME, false, some []⟩]).2.2.2
      (by decide) (by decide)⟩
